import Mathlib

/-!
Verification of the incremental markdown span-tracking engine in
`src/cffi/tabula/rendering/_cairopango.csrc.c`.

Embedding conventions, justified against the C source:

* The text buffer (`GString`) is a `List Nat` of Unicode codepoints.  All C
  offsets into the buffer are byte offsets into its UTF-8 encoding, so we
  compute per-codepoint byte widths with `utf8Len` (mirroring
  `g_unichar_to_utf8`) and byte offsets with `byteOff`.  `string->len` is
  `byteLen`, the number of codepoints is `cpLen`.
* A `PangoAttribute` is an `Attr`: a kind (`PANGO_ATTR_WEIGHT` /
  `PANGO_ATTR_STYLE` / foreground-alpha / underline), `start_index` and
  `end_index` (both `guint`, so reduced mod 2^32 at every assignment), plus
  an `id` that models C pointer identity (each `pango_attr_*_new` call
  yields a fresh pointer; we hand out fresh ids from a counter).
  `PANGO_ATTR_INDEX_TO_TEXT_END` is `G_MAXUINT = 2^32 - 1` (`ATTR_END`).
* `MarkdownState` keeps `pos` (a codepoint offset, the C `gulong pos`), the
  attribute list, and the open-toggle pointers `bold` / `italic` as
  optional ids.  The cached pointers `pos_p` / `prev_pos_p` are not stored:
  `markdown_state_housekeeping` guarantees that at every use they equal the
  recomputation from `pos` (`pos_p = str + byteOff s pos`,
  `prev_pos_p = NULL` iff `pos = 0`), so the model computes them on demand.
* The C walks NUL-terminated strings.  With `pos` at exactly one past the
  codepoint count, every pointer the code forms or reads stays within the
  string object: `g_utf8_offset_to_pointer` takes its last step over the
  NUL byte and stops one past it without reading further, and
  `g_utf8_find_prev_char` from there lands on the terminator — so retract
  at that offset is fully defined (the position silently clamps back to
  the codepoint count, the truncation is a no-op, and the filter runs with
  `last` equal to the byte length).  Only at two or more past the
  codepoint count does the walk read bytes beyond the terminator; the
  operations that would do so return `none` (no defined result).  The scan
  of `markdown_attrs` is different: its loop dereferences `pos_p` itself,
  so any `pos` beyond the codepoint count (once past its byte-length
  guard) reads past the terminator and is modeled as `none`.
* `pango_attr_list_insert` appends when the last attribute's `start_index`
  is at most the new one's, otherwise inserts before the first attribute
  with a larger `start_index`; `attr_list_insert` reproduces this.
* `pango_attr_list_filter` removes exactly the attributes on which the
  filter returns TRUE, visiting them in list order; the removed attributes
  are discarded (`pango_attr_list_unref (out)` in the C).
* `g_string_truncate (s, k)` shrinks the string to `min k (byteLen s)`
  bytes.  Every truncation performed by the modeled operations lands on a
  codepoint boundary, so `truncateToBytes` (greedy codepoint prefix fitting
  in `k` bytes) is exact on all modeled paths.
-/

/-- The four `PangoAttribute` kinds the engine creates:
`PANGO_ATTR_WEIGHT` (bold), `PANGO_ATTR_STYLE` (italic),
foreground alpha (cursor highlight), underline (compose underline). -/
inductive AttrType
  | weight
  | style
  | alpha
  | underline
deriving DecidableEq, Repr

/-- A `PangoAttribute`: kind, `guint` start/end indices, and an `id`
modeling C pointer identity. -/
structure Attr where
  id : Nat
  atype : AttrType
  start_index : Nat
  end_index : Nat
deriving DecidableEq, Repr

/-- Compact constructor for `Attr` literals. -/
def mkAttr (j : Nat) (ty : AttrType) (b e : Nat) : Attr :=
  { id := j, atype := ty, start_index := b, end_index := e }

/-- `PANGO_ATTR_INDEX_TO_TEXT_END = G_MAXUINT`. -/
def ATTR_END : Nat := 4294967295

/-- Reduction of a value stored into a `guint` field. -/
def guint (n : Nat) : Nat := n % 4294967296

/-- The C local `guint last; last--;` on a 32-bit unsigned value. -/
def guintDec (n : Nat) : Nat := (n + 4294967295) % 4294967296

/-- `gsize` decrement (`string->len - 1` in `cleanup_cursor`);
wraps at zero in 64-bit unsigned arithmetic. -/
def gsizeDec (n : Nat) : Nat := (n + 18446744073709551615) % 18446744073709551616

/-- `const gunichar ASTERISK = 42`. -/
def ASTERISK : Nat := 42

/-- `const gunichar UNDERSCORE = 95`. -/
def UNDERSCORE : Nat := 95

/-- UTF-8 byte width of a codepoint, as written by `g_unichar_to_utf8`. -/
def utf8Len (c : Nat) : Nat :=
  if c < 128 then 1
  else if c < 2048 then 2
  else if c < 65536 then 3
  else if c < 2097152 then 4
  else if c < 67108864 then 5
  else 6

/-- `string->len`: byte length of the UTF-8 encoding of the buffer. -/
def byteLen (s : List Nat) : Nat := (s.map utf8Len).sum

/-- Number of codepoints in the buffer. -/
def cpLen (s : List Nat) : Nat := s.length

/-- Byte offset of the codepoint at (codepoint) index `k`:
what `g_utf8_offset_to_pointer (str, k) - str` computes when `k ≤ cpLen s`. -/
def byteOff (s : List Nat) (k : Nat) : Nat := byteLen (s.take k)

/-- `g_string_truncate (s, k)`: keep the longest codepoint prefix whose
encoding fits in `k` bytes (exact whenever `k` is a codepoint boundary,
which holds on every modeled call site). -/
def truncateToBytes : List Nat → Nat → List Nat
  | [], _ => []
  | c :: t, k => if utf8Len c ≤ k then c :: truncateToBytes t (k - utf8Len c) else []

/-- Helper for `attr_list_insert`: insert before the first attribute whose
`start_index` exceeds the new attribute's. -/
def insertBeforeGreater (a : Attr) : List Attr → List Attr
  | [] => [a]
  | b :: t => if a.start_index < b.start_index then a :: b :: t else b :: insertBeforeGreater a t

/-- `pango_attr_list_insert`: append if the list is empty or the last
attribute's `start_index` is at most the new one's; otherwise insert before
the first attribute with a larger `start_index`. -/
def attr_list_insert (l : List Attr) (a : Attr) : List Attr :=
  match l.getLast? with
  | none => [a]
  | some z => if z.start_index ≤ a.start_index then l ++ [a] else insertBeforeGreater a l

/-- In-place mutation through a stored attribute pointer: set the
`end_index` of the attribute with id `j`. -/
def setAttrEnd (l : List Attr) (j v : Nat) : List Attr :=
  l.map (fun a => if a.id = j then { a with end_index := v } else a)

/-- `struct _MarkdownState`. `pos` is the scan cursor as a codepoint
offset; `bold` / `italic` are the open-toggle attribute pointers (by id);
`nextId` is the fresh-pointer counter of the embedding. -/
structure MarkdownState where
  pos : Nat
  attr_list : List Attr
  bold : Option Nat
  italic : Option Nat
  nextId : Nat
deriving DecidableEq, Repr

/-- Compact constructor for `MarkdownState` literals. -/
def mkState (p : Nat) (l : List Attr) (b i : Option Nat) (n : Nat) : MarkdownState :=
  { pos := p, attr_list := l, bold := b, italic := i, nextId := n }

/-- Pointer identity of `state->cursor_alpha`. -/
def cursorAlphaId : Nat := 0

/-- Pointer identity of `state->compose_underline`. -/
def composeUnderlineId : Nat := 1

/-- `markdown_state_new`: both overlay attributes are created with
`start_index = end_index = 0`; `compose_underline` is inserted first, then
`cursor_alpha`. -/
def markdown_state_new : MarkdownState :=
  { pos := 0,
    attr_list :=
      attr_list_insert
        (attr_list_insert []
          { id := composeUnderlineId, atype := AttrType.underline,
            start_index := 0, end_index := 0 })
        { id := cursorAlphaId, atype := AttrType.alpha,
          start_index := 0, end_index := 0 },
    bold := none,
    italic := none,
    nextId := 2 }

/-- `simplify_list_filter`: TRUE (remove) exactly on degenerate attributes
(`start_index == end_index`).  Note there is no kind check here. -/
def simplify_list_filter (a : Attr) : Bool := a.start_index == a.end_index

/-- `simplify_attr_list`: drop every attribute on which
`simplify_list_filter` returns TRUE. -/
def simplify_attr_list (l : List Attr) : List Attr :=
  l.filter (fun a => !(simplify_list_filter a))

/-- The body of one iteration of the scan loop of `markdown_attrs`: the
underscore toggle followed by the doubled-asterisk toggle, for the current
codepoint `c` at byte offset `bytePos` with previous codepoint `prevc`
(`0` when `prev_pos_p == NULL`, matching `prev = 0` in the C).  A new
attribute is created with `end_index = PANGO_ATTR_INDEX_TO_TEXT_END` (as
`pango_attr_style_new` / `pango_attr_weight_new` leave it); a close sets
the exclusive end one past the current byte offset; the bold open anchors
`start_index` at the previous byte position (`prev_pos_p - string->str`,
one byte back since the asterisk is a single byte).  This is the
underscore half. -/
def mdStepUnderscore (c bytePos : Nat) (st : MarkdownState) : MarkdownState :=
  if c = UNDERSCORE then
    match st.italic with
    | none =>
      { st with
        attr_list := attr_list_insert st.attr_list
          { id := st.nextId, atype := AttrType.style,
            start_index := guint bytePos, end_index := ATTR_END },
        italic := some st.nextId,
        nextId := st.nextId + 1 }
    | some j =>
      { st with
        attr_list := setAttrEnd st.attr_list j (guint (bytePos + 1)),
        italic := none }
  else st

/-- The doubled-asterisk half of the loop body (`prev == current`). -/
def mdStepAsterisk (c bytePos prevc : Nat) (st : MarkdownState) : MarkdownState :=
  if c = ASTERISK ∧ prevc = c then
    match st.bold with
    | none =>
      { st with
        attr_list := attr_list_insert st.attr_list
          { id := st.nextId, atype := AttrType.weight,
            start_index := guint (bytePos - 1), end_index := ATTR_END },
        bold := some st.nextId,
        nextId := st.nextId + 1 }
    | some j =>
      { st with
        attr_list := setAttrEnd st.attr_list j (guint (bytePos + 1)),
        bold := none }
  else st

/-- The whole loop body: underscore toggle, then asterisk toggle. -/
def mdStep (c bytePos prevc : Nat) (st : MarkdownState) : MarkdownState :=
  mdStepAsterisk c bytePos prevc (mdStepUnderscore c bytePos st)

/-- One pass of the scan loop of `markdown_attrs`, recursing over the
unscanned suffix of the buffer.  Arguments: remaining codepoints, current
codepoint offset `pos`, its byte offset `bytePos`, the previous codepoint,
and the state.  The loop exits at a NUL codepoint (the C tests
`g_utf8_get_char (state->pos_p) != 0`) and advances `state->pos` after the
toggle processing. -/
def mdScanAux : List Nat → Nat → Nat → Nat → MarkdownState → MarkdownState
  | [], _, _, _, st => st
  | c :: rest, pos, bytePos, prevc, st =>
    if c = 0 then st
    else
      mdScanAux rest (pos + 1) (bytePos + utf8Len c) c
        { mdStep c bytePos prevc st with pos := pos + 1 }

/-- `markdown_attrs`.  The `g_return_if_fail (state->pos <= string->len)`
guard compares the codepoint position against the *byte* length and returns
with the state untouched when it fails.  When the guard passes but `pos`
exceeds the codepoint count, the scan loop dereferences `pos_p`, a pointer
past the NUL terminator (and for `pos ≥ cpLen + 2` the housekeeping walk
already reads past it): no defined result, modeled as `none`. -/
def markdown_attrs (st : MarkdownState) (s : List Nat) : Option MarkdownState :=
  if byteLen s < st.pos then some st
  else if cpLen s < st.pos then none
  else
    some (mdScanAux (s.drop st.pos) st.pos (byteOff s st.pos)
      (if st.pos = 0 then 0 else s.getD (st.pos - 1) 0) st)

/-- The effective cutoff used by `backspace_filter` on one attribute: the
`guint` local `last`, decremented (`last--`, wrapping 32-bit unsigned) for
weight attributes because "bold ones start one character before". -/
def attrCutoff (last : Nat) (a : Attr) : Nat :=
  if a.atype = AttrType.weight then guintDec last else last

/-- `backspace_filter`, applied to one attribute with the current open
pointers `b` (bold) and `i` (italic).  Returns
(remove?, possibly mutated attribute, new bold pointer, new italic
pointer).  `last` is a `guint`; for weight attributes it is decremented in
32-bit unsigned arithmetic (`last--`). -/
def backspace_filter (last : Nat) (a : Attr) (b i : Option Nat) :
    Bool × Attr × Option Nat × Option Nat :=
  if a.atype = AttrType.style ∨ a.atype = AttrType.weight then
    let cf := attrCutoff last a
    let a' := if cf ≤ a.end_index then { a with end_index := ATTR_END } else a
    let b1 := if a.atype = AttrType.weight ∧ cf ≤ a.end_index then some a.id else b
    let i1 := if a.atype = AttrType.style ∧ cf ≤ a.end_index then some a.id else i
    if cf ≤ a.start_index then
      (true, a', (if b1 = some a.id then none else b1), (if i1 = some a.id then none else i1))
    else
      (false, a', b1, i1)
  else
    (false, a, b, i)

/-- `pango_attr_list_filter (state->attr_list, backspace_filter, state)`:
visit the attributes in list order, threading the `state->bold` /
`state->italic` pointers, dropping the attributes on which the filter
returned TRUE.  Returns the surviving list and the final pointers. -/
def attr_list_filter_backspace (last : Nat) :
    List Attr → Option Nat → Option Nat → List Attr × Option Nat × Option Nat
  | [], b, i => ([], b, i)
  | a :: t, b, i =>
    match backspace_filter last a b i with
    | (true, _, b1, i1) => attr_list_filter_backspace last t b1 i1
    | (false, a', b1, i1) =>
      let r := attr_list_filter_backspace last t b1 i1
      (a' :: r.1, r.2)

/-- `markdown_attrs_backspace`.  After housekeeping, a NULL `prev_pos_p`
(`pos = 0`) is a silent no-op.  Otherwise the cursor moves back one
codepoint, the buffer is truncated to the new byte offset, and the
attribute list is filtered by `backspace_filter`.  The function performs no
position validation.  At `pos = cpLen + 1` it is still fully defined:
housekeeping's `g_utf8_offset_to_pointer` stops one past the NUL without
reading beyond it, `g_utf8_find_prev_char` returns the terminator
position, so `pos` silently clamps back to `cpLen` (here `pos - 1`), the
truncation is a no-op, and the filter runs with `last` equal to the byte
length — exactly the `pos - 1` body below.  Only for `pos ≥ cpLen + 2`
does the pointer walk read past the terminator (`none`). -/
def markdown_attrs_backspace (st : MarkdownState) (s : List Nat) :
    Option (MarkdownState × List Nat) :=
  if cpLen s + 1 < st.pos then none
  else if st.pos = 0 then some (st, s)
  else
    let newPos := st.pos - 1
    let last := guint (byteOff s newPos)
    let r := attr_list_filter_backspace last st.attr_list st.bold st.italic
    some ({ st with pos := newPos, attr_list := r.1, bold := r.2.1, italic := r.2.2 },
      truncateToBytes s (byteOff s newPos))

/-- `setup_cursor`: set the cursor-alpha attribute to
`[string->len, string->len + 1)` (stored into `guint` fields) and append
one `UNDERSCORE` codepoint. -/
def setup_cursor (st : MarkdownState) (s : List Nat) : MarkdownState × List Nat :=
  ({ st with attr_list := st.attr_list.map (fun a =>
      if a.id = cursorAlphaId then
        { a with start_index := guint (byteLen s), end_index := guint (byteLen s + 1) }
      else a) },
   s ++ [UNDERSCORE])

/-- `cleanup_cursor`: truncate the string to `string->len - 1` bytes
(`gsize` arithmetic, wrapping at zero) and reset the cursor-alpha
attribute to `[0, 0)`. -/
def cleanup_cursor (st : MarkdownState) (s : List Nat) : MarkdownState × List Nat :=
  ({ st with attr_list := st.attr_list.map (fun a =>
      if a.id = cursorAlphaId then { a with start_index := 0, end_index := 0 } else a) },
   truncateToBytes s (gsizeDec (byteLen s)))

/-- `setup_compose`: set the compose-underline attribute from
caller-supplied `guint` offsets. -/
def setup_compose (st : MarkdownState) (b e : Nat) : MarkdownState :=
  { st with attr_list := st.attr_list.map (fun a =>
      if a.id = composeUnderlineId then
        { a with start_index := guint b, end_index := guint e }
      else a) }

/-- `cleanup_compose`: reset the compose-underline attribute to `[0, 0)`. -/
def cleanup_compose (st : MarkdownState) : MarkdownState :=
  { st with attr_list := st.attr_list.map (fun a =>
      if a.id = composeUnderlineId then { a with start_index := 0, end_index := 0 } else a) }

/-- The weight (bold) attributes of a list, in order. -/
def weightSpans (l : List Attr) : List Attr :=
  l.filter (fun a => a.atype == AttrType.weight)

/-- The style (italic) attributes of a list, in order. -/
def styleSpans (l : List Attr) : List Attr :=
  l.filter (fun a => a.atype == AttrType.style)

/-- The observables of a scan result used by the marker-pairing claims:
italic spans, bold spans, and the two open-toggle pointers. -/
def scanView (st : MarkdownState) :
    List Attr × List Attr × Option Nat × Option Nat :=
  (styleSpans st.attr_list, weightSpans st.attr_list, st.italic, st.bold)

/-- The ids (pointer identities) of a list of attributes, in order. -/
def idsOf (l : List Attr) : List Nat := l.map (fun a => a.id)

/-- Attributes subject to markdown toggling: `PANGO_ATTR_STYLE` or
`PANGO_ATTR_WEIGHT` (the kinds `backspace_filter` does not skip). -/
def mdKind (a : Attr) : Prop :=
  a.atype = AttrType.style ∨ a.atype = AttrType.weight

/-- The two reserved overlay kinds (cursor highlight, compose underline). -/
def overlayKind (a : Attr) : Prop :=
  a.atype = AttrType.alpha ∨ a.atype = AttrType.underline

/-- Number of attributes of a given kind in a list. -/
def countKind (ty : AttrType) (l : List Attr) : Nat :=
  l.countP (fun a => a.atype == ty)

/-- The last attribute (in list order) of kind `ty` whose `end_index` is at
least `cf` — the attribute that ends up as the re-established open pointer
after a backspace filter pass, since later matches overwrite earlier
ones. -/
def lastReopened (ty : AttrType) (cf : Nat) : List Attr → Option Attr
  | [] => none
  | a :: t =>
    match lastReopened ty cf t with
    | some L => some L
    | none => if a.atype = ty ∧ cf ≤ a.end_index then some a else none

/-- Well-formedness of the scan state as the C maintains it: every
attribute id (pointer) was handed out before `n` (the next fresh pointer),
and each open-toggle pointer, when set, refers only to attributes of its
own kind.  These hold for every state reachable from
`markdown_state_new`. -/
def scanInv (l : List Attr) (b i : Option Nat) (n : Nat) : Prop :=
  (∀ a ∈ l, a.id < n) ∧
  (∀ j, b = some j → j < n ∧ ∀ a ∈ l, a.id = j → a.atype = AttrType.weight) ∧
  (∀ j, i = some j → j < n ∧ ∀ a ∈ l, a.id = j → a.atype = AttrType.style)

/-- `scanInv` for a whole engine state. -/
def mdInv (st : MarkdownState) : Prop :=
  scanInv st.attr_list st.bold st.italic st.nextId

/-- A list transformation leaves the overlay population intact: the count
of every non-markdown attribute kind is unchanged, and every overlay
attribute of the input survives, untouched, in the output. -/
def overlayPreserved (l l' : List Attr) : Prop :=
  (∀ ty, ty ≠ AttrType.style → ty ≠ AttrType.weight →
    countKind ty l' = countKind ty l) ∧
  (∀ a ∈ l, overlayKind a → a ∈ l')

/-- The backspace cutoff exactly as the specification words it: "Compute
`cutoff = new_offset`, adjusted by `-1` for Bold spans" — plain integer
arithmetic, no unsigned wraparound.  Kept separate from `attrCutoff` (the
source's `guint` computation) to compare the two. -/
def spec_cutoff (newOffset : Nat) (isWeight : Bool) : Int :=
  (newOffset : Int) - (if isWeight then 1 else 0)

/-- Declarative description of one `markdown_attrs_backspace` filter pass
from state `st` to state `st'` with filter argument `last`:

* overlay attributes pass through untouched;
* a markdown attribute with `start` and `end` both below its cutoff is
  unchanged;
* one with `start` below but `end` at or above the cutoff is converted to
  unbounded (`ATTR_END`) and kept;
* one with `start` at or above the cutoff is removed;
* nothing else appears in the output;
* the final open pointers: the last kind-matching attribute with
  `end ≥ cutoff` is re-established as the open pointer (unless it was
  itself removed, which clears the pointer); when no attribute matched,
  the pointer survives unless its attribute was removed. -/
def backspaceSpecAt (st st' : MarkdownState) (last : Nat) : Prop :=
  (∀ a ∈ st.attr_list, ¬ mdKind a → a ∈ st'.attr_list) ∧
  (∀ a ∈ st.attr_list, mdKind a → a.start_index < attrCutoff last a →
      a.end_index < attrCutoff last a → a ∈ st'.attr_list) ∧
  (∀ a ∈ st.attr_list, mdKind a → a.start_index < attrCutoff last a →
      attrCutoff last a ≤ a.end_index → { a with end_index := ATTR_END } ∈ st'.attr_list) ∧
  (∀ a ∈ st.attr_list, mdKind a → attrCutoff last a ≤ a.start_index →
      a.id ∉ idsOf st'.attr_list) ∧
  (∀ a' ∈ st'.attr_list, ∃ a ∈ st.attr_list,
      a' = a ∨ a' = { a with end_index := ATTR_END }) ∧
  (∀ L, lastReopened AttrType.weight (guintDec last) st.attr_list = some L →
      st'.bold = if L.start_index < guintDec last then some L.id else none) ∧
  (lastReopened AttrType.weight (guintDec last) st.attr_list = none →
      ((∃ a ∈ st.attr_list, a.atype = AttrType.weight ∧ guintDec last ≤ a.start_index ∧
          st.bold = some a.id) → st'.bold = none) ∧
      (¬ (∃ a ∈ st.attr_list, a.atype = AttrType.weight ∧ guintDec last ≤ a.start_index ∧
          st.bold = some a.id) → st'.bold = st.bold)) ∧
  (∀ L, lastReopened AttrType.style last st.attr_list = some L →
      st'.italic = if L.start_index < last then some L.id else none) ∧
  (lastReopened AttrType.style last st.attr_list = none →
      ((∃ a ∈ st.attr_list, a.atype = AttrType.style ∧ last ≤ a.start_index ∧
          st.italic = some a.id) → st'.italic = none) ∧
      (¬ (∃ a ∈ st.attr_list, a.atype = AttrType.style ∧ last ≤ a.start_index ∧
          st.italic = some a.id) → st'.italic = st.italic))

/-- C5: from the fresh engine state, extending over `_word_` yields exactly
one Italic span `[0, 6)` (start at the first underscore, end one past the
last) with the open-italic pointer cleared, and extending over `**word**`
yields exactly one Bold span `[0, 8)` (start at the first asterisk of the
opening pair, end one past the last asterisk of the closing pair) with the
open-bold pointer cleared; neither run produces spans of the other kind. -/
theorem c5_marker_pairing :
    (markdown_attrs markdown_state_new [95, 119, 111, 114, 100, 95]).map scanView =
      some ([{ id := 2, atype := AttrType.style, start_index := 0, end_index := 6 }],
        [], none, none) ∧
    (markdown_attrs markdown_state_new [42, 42, 119, 111, 114, 100, 42, 42]).map scanView =
      some ([],
        [{ id := 2, atype := AttrType.weight, start_index := 0, end_index := 8 }],
        none, none) := by
  constructor
  · decide
  · decide

/-- C4 counterexample: scanning `***x***` from the fresh state does not
yield exactly one Bold span — the immediate-predecessor pairing rule of
`markdown_attrs` toggles bold once per adjacent asterisk pair, so the first
three asterisks already open and close a span, giving two bold spans. -/
theorem c4_triple_asterisk_counterexample :
    (markdown_attrs markdown_state_new [42, 42, 42, 120, 42, 42, 42]).map
        (fun st => (weightSpans st.attr_list).length) = some 2 ∧
    (2 : Nat) ≠ 1 := by
  constructor
  · decide
  · decide

/-- Every codepoint encodes to at least one byte. -/
theorem utf8Len_pos (c : Nat) : 1 ≤ utf8Len c := by
  unfold utf8Len
  split
  · omega
  · split
    · omega
    · split
      · omega
      · split
        · omega
        · split <;> omega

/-- Byte length distributes over append. -/
theorem byteLen_append (s t : List Nat) : byteLen (s ++ t) = byteLen s + byteLen t := by
  simp [byteLen]

/-- Byte length of a cons cell. -/
theorem byteLen_cons (c : Nat) (s : List Nat) :
    byteLen (c :: s) = utf8Len c + byteLen s := by
  simp [byteLen]

/-- Truncating at the byte length of a prefix recovers exactly that prefix:
the next codepoint (if any) needs at least one more byte. -/
theorem truncate_at_byteLen (p t : List Nat) :
    truncateToBytes (p ++ t) (byteLen p) = p := by
  induction p with
  | nil =>
    cases t with
    | nil => rfl
    | cons c t' =>
      show truncateToBytes (c :: t') (byteLen []) = []
      have h2 := utf8Len_pos c
      unfold truncateToBytes
      rw [show byteLen ([] : List Nat) = 0 from rfl, if_neg (by omega)]
  | cons c p' ih =>
    show truncateToBytes (c :: (p' ++ t)) (byteLen (c :: p')) = c :: p'
    unfold truncateToBytes
    rw [byteLen_cons, if_pos (by omega)]
    have harith : utf8Len c + byteLen p' - utf8Len c = byteLen p' := by omega
    rw [harith, ih]

/-- C4 amended: scanning `***x***` from the fresh state yields exactly two
Bold spans, `[0, 3)` over the leading asterisk run (opened at the second
asterisk, anchored one codepoint back, closed at the third) and `[4, 7)`
over the trailing run, with no Italic span and both toggles clear. -/
theorem c4_triple_asterisk_amended :
    (markdown_attrs markdown_state_new [42, 42, 42, 120, 42, 42, 42]).map scanView =
      some ([],
        [{ id := 2, atype := AttrType.weight, start_index := 0, end_index := 3 },
         { id := 3, atype := AttrType.weight, start_index := 4, end_index := 7 }],
        none, none) := by
  decide

/-- C1: the append/retract round trip fails on the code.  Starting from the
reachable state obtained by scanning `__` (one closed Italic span `[0, 2)`,
no open toggles), appending `a` and extending, then retracting once, does
not restore the original state: `backspace_filter` compares
`end_index >= last` with `last` equal to the retracted position, so the
closed italic span — whose exclusive end equals the new buffer length — is
converted back to unbounded and re-established as the open italic pointer.
The spec's round-trip property (§8) and the reconciler contract (§4.3,
"restores all derived state to what it would have been had that codepoint
never been appended") are the documented intent; the `>=` (rather than `>`)
comparison breaks them. -/
theorem c1_roundtrip_code_bug :
    markdown_attrs markdown_state_new [95, 95] =
      some (mkState 2
        [mkAttr 1 AttrType.underline 0 0, mkAttr 0 AttrType.alpha 0 0,
          mkAttr 2 AttrType.style 0 2] none none 3) ∧
    markdown_attrs
      (mkState 2
        [mkAttr 1 AttrType.underline 0 0, mkAttr 0 AttrType.alpha 0 0,
          mkAttr 2 AttrType.style 0 2] none none 3) [95, 95, 97] =
      some (mkState 3
        [mkAttr 1 AttrType.underline 0 0, mkAttr 0 AttrType.alpha 0 0,
          mkAttr 2 AttrType.style 0 2] none none 3) ∧
    markdown_attrs_backspace
      (mkState 3
        [mkAttr 1 AttrType.underline 0 0, mkAttr 0 AttrType.alpha 0 0,
          mkAttr 2 AttrType.style 0 2] none none 3) [95, 95, 97] =
      some (mkState 2
        [mkAttr 1 AttrType.underline 0 0, mkAttr 0 AttrType.alpha 0 0,
          mkAttr 2 AttrType.style 0 4294967295] none (some 2) 3, [95, 95]) ∧
    mkState 2
      [mkAttr 1 AttrType.underline 0 0, mkAttr 0 AttrType.alpha 0 0,
        mkAttr 2 AttrType.style 0 4294967295] none (some 2) 3 ≠
    mkState 2
      [mkAttr 1 AttrType.underline 0 0, mkAttr 0 AttrType.alpha 0 0,
        mkAttr 2 AttrType.style 0 2] none none 3 := by
  refine ⟨by decide, by decide, by decide, by decide⟩

/-- C2 counterexample: a retract call at codepoint position 1 over the
one-byte buffer `a` has `new_offset = 0`.  For a Bold span the claim's
cutoff is `new_offset - 1 = -1`, so a weight span with concrete
`end_index = 5 ≥ -1` would have to be converted to unbounded and
re-established as `open_bold`; the code instead computes `last--` on a
`guint`, wrapping `0` to `2^32 - 1`, and leaves the span (and the cleared
bold pointer) untouched. -/
theorem c2_cutoff_counterexample :
    markdown_attrs_backspace
      (mkState 1
        [mkAttr 1 AttrType.underline 0 0, mkAttr 0 AttrType.alpha 0 0,
          mkAttr 2 AttrType.weight 0 5] none none 3) [97] =
      some (mkState 0
        [mkAttr 1 AttrType.underline 0 0, mkAttr 0 AttrType.alpha 0 0,
          mkAttr 2 AttrType.weight 0 5] none none 3, []) ∧
    spec_cutoff (byteOff [97] 0) true ≤ (5 : Int) ∧
    (5 : Nat) ≠ ATTR_END := by
  refine ⟨by decide, by decide, by decide⟩

/-- C6 counterexample: `markdown_attrs_backspace` performs no position
validation and does not abort.  With the scan cursor one codepoint past
the one-codepoint buffer `_` (offset 2 exceeds the buffer length in both
codepoints and bytes), the claim requires the operation to abort with the
buffer, span list, toggle state and offset untouched; instead the source
proceeds: `g_utf8_find_prev_char` from one past the NUL lands on the
terminator, the offset silently clamps from 2 back to 1, and the filter
runs with `last = byteLen = 1`, converting the closed italic span `[0,2)`
to unbounded and re-establishing it as `open_italic`. -/
theorem c6_retract_clamps_counterexample :
    cpLen [95] <
      (mkState 2
        [mkAttr 1 AttrType.underline 0 0, mkAttr 0 AttrType.alpha 0 0,
          mkAttr 2 AttrType.style 0 2] none none 3).pos ∧
    markdown_attrs_backspace
      (mkState 2
        [mkAttr 1 AttrType.underline 0 0, mkAttr 0 AttrType.alpha 0 0,
          mkAttr 2 AttrType.style 0 2] none none 3) [95] =
      some (mkState 1
        [mkAttr 1 AttrType.underline 0 0, mkAttr 0 AttrType.alpha 0 0,
          mkAttr 2 AttrType.style 0 4294967295] none (some 2) 3, [95]) ∧
    mkState 1
      [mkAttr 1 AttrType.underline 0 0, mkAttr 0 AttrType.alpha 0 0,
        mkAttr 2 AttrType.style 0 4294967295] none (some 2) 3 ≠
    mkState 2
      [mkAttr 1 AttrType.underline 0 0, mkAttr 0 AttrType.alpha 0 0,
        mkAttr 2 AttrType.style 0 2] none none 3 := by
  refine ⟨by decide, by decide, by decide⟩

/-- C6 amended: only `markdown_attrs` validates the position.  When the
scan cursor offset exceeds the buffer byte length,
`g_return_if_fail (state->pos <= string->len)` aborts the extend operation
with the state (buffer, span list, toggle pointers) untouched and the
offset unclamped.  `markdown_attrs_backspace` has no such check: with the
offset one codepoint past the buffer it does not abort — the offset
silently clamps back to the codepoint count, the buffer is unchanged, and
the filter pass runs with `last` equal to the byte length. -/
theorem c6_position_check_amended :
    (∀ (st : MarkdownState) (s : List Nat), byteLen s < st.pos →
      markdown_attrs st s = some st) ∧
    (∀ (st : MarkdownState) (s : List Nat), st.pos = cpLen s + 1 →
      markdown_attrs_backspace st s =
        some ({ st with
          pos := cpLen s,
          attr_list := (attr_list_filter_backspace (guint (byteLen s))
            st.attr_list st.bold st.italic).1,
          bold := (attr_list_filter_backspace (guint (byteLen s))
            st.attr_list st.bold st.italic).2.1,
          italic := (attr_list_filter_backspace (guint (byteLen s))
            st.attr_list st.bold st.italic).2.2 }, s)) := by
  refine ⟨?_, ?_⟩
  · intro st s h
    unfold markdown_attrs
    rw [if_pos h]
  · intro st s hpos
    have h1 : ¬ (cpLen s + 1 < st.pos) := by omega
    have h2 : ¬ (st.pos = 0) := by omega
    have hp1 : st.pos - 1 = cpLen s := by omega
    have hb : byteOff s (cpLen s) = byteLen s := by
      unfold byteOff cpLen
      rw [List.take_length]
    have ht := truncate_at_byteLen s []
    rw [List.append_nil] at ht
    unfold markdown_attrs_backspace
    rw [if_neg h1, if_neg h2]
    simp only [hp1, hb, ht]

/-- Witness for `c6_position_check_amended`: the extend half over the
empty buffer at offset 1, and the retract half at the same state — the
offset silently clamps from 1 back to 0 with the buffer and the fresh
overlay-only span list unchanged. -/
theorem c6_position_check_witness :
    (byteLen [] < (mkState 1 [] none none 0).pos ∧
      markdown_attrs (mkState 1 [] none none 0) [] = some (mkState 1 [] none none 0)) ∧
    ((mkState 1 markdown_state_new.attr_list none none 2).pos = cpLen ([] : List Nat) + 1 ∧
      markdown_attrs_backspace
        (mkState 1 markdown_state_new.attr_list none none 2) [] =
        some (mkState 0 markdown_state_new.attr_list none none 2, [])) :=
  ⟨⟨by decide, c6_position_check_amended.1 _ _ (by decide)⟩,
   ⟨by decide, c6_position_check_amended.2
      (mkState 1 markdown_state_new.attr_list none none 2) [] (by decide)⟩⟩

/-- C7: retract with the scan cursor at the buffer start (`pos = 0`, so
`g_utf8_find_prev_char` yields NULL) is a silent no-op: the buffer, span
list, open toggles and cursor position are all returned unchanged. -/
theorem c7_retract_noop :
    ∀ (st : MarkdownState) (s : List Nat), st.pos = 0 →
      markdown_attrs_backspace st s = some (st, s) := by
  intro st s h
  unfold markdown_attrs_backspace
  rw [if_neg (by omega), if_pos h]

/-- Witness for `c7_retract_noop` on the fresh state over a one-codepoint
buffer. -/
theorem c7_retract_noop_witness :
    markdown_state_new.pos = 0 ∧
    markdown_attrs_backspace markdown_state_new [97] = some (markdown_state_new, [97]) :=
  ⟨by decide, c7_retract_noop _ _ (by decide)⟩

/-- C8: the simplifier is idempotent — one pass removes every degenerate
(`start_index = end_index`) attribute and keeps every other attribute
unchanged, so a second pass does nothing. -/
theorem c8_simplify_idempotent :
    ∀ l : List Attr,
      simplify_attr_list (simplify_attr_list l) = simplify_attr_list l ∧
      (∀ a ∈ simplify_attr_list l, a.start_index ≠ a.end_index) ∧
      (∀ a ∈ l, a.start_index ≠ a.end_index → a ∈ simplify_attr_list l) := by
  intro l
  refine ⟨?_, ?_, ?_⟩
  · apply List.filter_eq_self.mpr
    intro a ha
    exact (List.mem_filter.mp ha).2
  · intro a ha
    have h := (List.mem_filter.mp ha).2
    simpa [simplify_list_filter] using h
  · intro a ha h
    exact List.mem_filter.mpr ⟨ha, by simpa [simplify_list_filter] using h⟩

/-- Witness for `c8_simplify_idempotent`: a non-degenerate attribute
survives the pass. -/
theorem c8_simplify_idempotent_witness :
    ({ id := 5, atype := AttrType.style, start_index := 0, end_index := 3 } : Attr) ∈
      simplify_attr_list
        [{ id := 5, atype := AttrType.style, start_index := 0, end_index := 3 }] :=
  (c8_simplify_idempotent _).2.2 _ (by decide) (by decide)

/-- C10: `cleanup_cursor` on the empty buffer.  `string->len - 1` is
computed in `gsize` arithmetic, so `0 - 1` wraps to `2^64 - 1` and
`g_string_truncate` (which only ever shrinks) leaves the empty buffer
empty instead of shrinking out of bounds; the cursor-alpha attribute is
still reset to `[0, 0)`. -/
theorem c10_cleanup_empty_buffer :
    gsizeDec (byteLen ([] : List Nat)) = 18446744073709551615 ∧
    ∀ st : MarkdownState,
      cleanup_cursor st [] =
        ({ st with attr_list := st.attr_list.map (fun a =>
            if a.id = cursorAlphaId then { a with start_index := 0, end_index := 0 } else a) },
          []) := by
  refine ⟨by decide, ?_⟩
  intro st
  rfl

/-- C9: for any engine state and buffer (whose byte length fits the `guint`
span indices), `setup_cursor` appends exactly one `UNDERSCORE` codepoint
and points the cursor-alpha attribute at `[len, len + 1)`; an immediately
following `cleanup_cursor` truncates exactly that codepoint back off,
resets the cursor-alpha attribute to `[0, 0)`, and leaves every other
attribute and the rest of the state unchanged. -/
theorem c9_cursor_roundtrip :
    ∀ (st : MarkdownState) (s : List Nat), byteLen s + 1 < 4294967296 →
      (setup_cursor st s).2 = s ++ [UNDERSCORE] ∧
      (∀ a ∈ (setup_cursor st s).1.attr_list, a.id = cursorAlphaId →
        a.start_index = byteLen s ∧ a.end_index = byteLen s + 1) ∧
      (cleanup_cursor (setup_cursor st s).1 (setup_cursor st s).2).2 = s ∧
      (∀ a ∈ st.attr_list, a.id ≠ cursorAlphaId →
        a ∈ (cleanup_cursor (setup_cursor st s).1 (setup_cursor st s).2).1.attr_list) ∧
      (∀ a ∈ (cleanup_cursor (setup_cursor st s).1 (setup_cursor st s).2).1.attr_list,
        a.id = cursorAlphaId → a.start_index = 0 ∧ a.end_index = 0) ∧
      (cleanup_cursor (setup_cursor st s).1 (setup_cursor st s).2).1.pos = st.pos ∧
      (cleanup_cursor (setup_cursor st s).1 (setup_cursor st s).2).1.bold = st.bold ∧
      (cleanup_cursor (setup_cursor st s).1 (setup_cursor st s).2).1.italic = st.italic := by
  intro st s h
  refine ⟨rfl, ?_, ?_, ?_, ?_, rfl, rfl, rfl⟩
  · intro a ha hid
    simp only [setup_cursor, List.mem_map] at ha
    obtain ⟨b, hb, rfl⟩ := ha
    by_cases hb0 : b.id = cursorAlphaId
    · rw [if_pos hb0]
      constructor
      · show guint (byteLen s) = byteLen s
        unfold guint
        omega
      · show guint (byteLen s + 1) = byteLen s + 1
        unfold guint
        omega
    · rw [if_neg hb0] at hid
      exact absurd hid hb0
  · show truncateToBytes (s ++ [UNDERSCORE]) (gsizeDec (byteLen (s ++ [UNDERSCORE]))) = s
    have h1 : byteLen (s ++ [UNDERSCORE]) = byteLen s + 1 := by
      rw [byteLen_append]
      rfl
    have h2 : gsizeDec (byteLen s + 1) = byteLen s := by
      unfold gsizeDec
      omega
    rw [h1, h2]
    exact truncate_at_byteLen s [UNDERSCORE]
  · intro a ha hid
    simp only [cleanup_cursor, setup_cursor, List.mem_map]
    exact ⟨a, ⟨a, ha, by rw [if_neg hid]⟩, by rw [if_neg hid]⟩
  · intro a ha hid
    simp only [cleanup_cursor, setup_cursor, List.mem_map] at ha
    obtain ⟨b, hb, rfl⟩ := ha
    by_cases hb0 : b.id = cursorAlphaId
    · rw [if_pos hb0]
      exact ⟨rfl, rfl⟩
    · rw [if_neg hb0] at hid
      exact absurd hid hb0

/-- Witness for `c9_cursor_roundtrip` at the fresh state over the empty
buffer. -/
theorem c9_cursor_roundtrip_witness :
    byteLen [] + 1 < 4294967296 ∧
    (setup_cursor markdown_state_new []).2 = [] ++ [UNDERSCORE] ∧
    (cleanup_cursor (setup_cursor markdown_state_new []).1
      (setup_cursor markdown_state_new []).2).2 = [] :=
  ⟨by decide, (c9_cursor_roundtrip markdown_state_new [] (by decide)).1,
    (c9_cursor_roundtrip markdown_state_new [] (by decide)).2.2.1⟩

/-- `insertBeforeGreater` is a permutation of plain cons. -/
theorem insertBeforeGreater_perm (a : Attr) (l : List Attr) :
    (insertBeforeGreater a l).Perm (a :: l) := by
  induction l with
  | nil => exact List.Perm.refl _
  | cons b t ih =>
    unfold insertBeforeGreater
    by_cases hc : a.start_index < b.start_index
    · rw [if_pos hc]
    · rw [if_neg hc]
      exact (ih.cons b).trans (List.Perm.swap a b t)

/-- `pango_attr_list_insert` is a permutation of plain cons. -/
theorem attr_list_insert_perm (l : List Attr) (a : Attr) :
    (attr_list_insert l a).Perm (a :: l) := by
  unfold attr_list_insert
  cases hl : l.getLast? with
  | none =>
    have : l = [] := List.getLast?_eq_none_iff.mp hl
    subst this
    exact List.Perm.refl _
  | some z =>
    show (if z.start_index ≤ a.start_index then l ++ [a] else insertBeforeGreater a l).Perm (a :: l)
    by_cases hc : z.start_index ≤ a.start_index
    · rw [if_pos hc]
      exact List.perm_append_singleton a l
    · rw [if_neg hc]
      exact insertBeforeGreater_perm a l

/-- Kind count after a `pango_attr_list_insert`. -/
theorem countKind_attr_list_insert (ty : AttrType) (l : List Attr) (a : Attr) :
    countKind ty (attr_list_insert l a) =
      countKind ty l + (if a.atype == ty then 1 else 0) := by
  unfold countKind
  rw [(attr_list_insert_perm l a).countP_eq, List.countP_cons]

/-- Membership in a `pango_attr_list_insert` result. -/
theorem mem_attr_list_insert (l : List Attr) (a x : Attr) :
    x ∈ attr_list_insert l a ↔ x = a ∨ x ∈ l := by
  rw [(attr_list_insert_perm l a).mem_iff, List.mem_cons]

/-- `setAttrEnd` never changes kind counts (it only rewrites an
`end_index`). -/
theorem countKind_setAttrEnd (ty : AttrType) (l : List Attr) (j v : Nat) :
    countKind ty (setAttrEnd l j v) = countKind ty l := by
  unfold countKind setAttrEnd
  rw [List.countP_map]
  apply List.countP_congr
  intro x _
  by_cases hxj : x.id = j
  · simp [Function.comp, hxj]
  · simp [Function.comp, hxj]

/-- An attribute whose id is not targeted passes through `setAttrEnd`
unchanged. -/
theorem mem_setAttrEnd_of_ne (l : List Attr) (j v : Nat) (a : Attr)
    (ha : a ∈ l) (hne : a.id ≠ j) : a ∈ setAttrEnd l j v := by
  unfold setAttrEnd
  exact List.mem_map.mpr ⟨a, ha, by rw [if_neg hne]⟩

/-- A markdown-kind attribute is not an overlay attribute. -/
theorem mdKind_not_overlay (a : Attr) (h : mdKind a) : ¬ overlayKind a := by
  intro hov
  rcases h with h' | h' <;> rcases hov with h'' | h'' <;> rw [h'] at h'' <;>
    exact AttrType.noConfusion h''

/-- A style-typed attribute is not an overlay attribute. -/
theorem style_not_overlay (a : Attr) (h : a.atype = AttrType.style) :
    ¬ overlayKind a :=
  mdKind_not_overlay a (Or.inl h)

/-- A weight-typed attribute is not an overlay attribute. -/
theorem weight_not_overlay (a : Attr) (h : a.atype = AttrType.weight) :
    ¬ overlayKind a :=
  mdKind_not_overlay a (Or.inr h)

/-- `overlayPreserved` is reflexive. -/
theorem overlayPreserved_refl (l : List Attr) : overlayPreserved l l :=
  ⟨fun _ _ _ => rfl, fun _ ha _ => ha⟩

/-- `overlayPreserved` composes. -/
theorem overlayPreserved_trans {l1 l2 l3 : List Attr}
    (h12 : overlayPreserved l1 l2) (h23 : overlayPreserved l2 l3) :
    overlayPreserved l1 l3 :=
  ⟨fun ty ha hb => (h23.1 ty ha hb).trans (h12.1 ty ha hb),
   fun a ha hov => h23.2 a (h12.2 a ha hov) hov⟩

/-- Inserting a markdown-kind attribute preserves the overlays. -/
theorem overlayPreserved_insert (l : List Attr) (a : Attr) (h : mdKind a) :
    overlayPreserved l (attr_list_insert l a) := by
  constructor
  · intro ty hty1 hty2
    rw [countKind_attr_list_insert]
    have hz : (a.atype == ty) = false := by
      rw [beq_eq_false_iff_ne]
      rcases h with h' | h' <;> rw [h']
      · exact fun he => hty1 he.symm
      · exact fun he => hty2 he.symm
    rw [hz]
    simp
  · intro x hx _
    exact (mem_attr_list_insert l a x).mpr (Or.inr hx)

/-- Rewriting the end of a markdown-kind attribute (all attributes with the
targeted id are markdown-kind) preserves the overlays. -/
theorem overlayPreserved_setAttrEnd (l : List Attr) (j v : Nat)
    (hj : ∀ x ∈ l, x.id = j → ¬ overlayKind x) :
    overlayPreserved l (setAttrEnd l j v) := by
  constructor
  · intro ty _ _
    exact countKind_setAttrEnd ty l j v
  · intro x hx hov
    by_cases hxj : x.id = j
    · exact absurd hov (hj x hx hxj)
    · exact mem_setAttrEnd_of_ne l j v x hx hxj

/-- Kind count of a cons cell. -/
theorem countKind_cons (ty : AttrType) (a : Attr) (t : List Attr) :
    countKind ty (a :: t) = countKind ty t + (if a.atype == ty then 1 else 0) := by
  unfold countKind
  rw [List.countP_cons]

/-- Keeping an unchanged head preserves the overlays. -/
theorem overlayPreserved_cons (a : Attr) {t t' : List Attr}
    (hp : overlayPreserved t t') : overlayPreserved (a :: t) (a :: t') := by
  constructor
  · intro ty hty1 hty2
    rw [countKind_cons, countKind_cons, hp.1 ty hty1 hty2]
  · intro x hx hov
    rcases List.mem_cons.mp hx with rfl | hx'
    · exact List.mem_cons_self x t'
    · exact List.mem_cons_of_mem a (hp.2 x hx' hov)

/-- Dropping a markdown-kind head preserves the overlays. -/
theorem overlayPreserved_skip_md (a : Attr) {t t' : List Attr} (h : mdKind a)
    (hp : overlayPreserved t t') : overlayPreserved (a :: t) t' := by
  constructor
  · intro ty hty1 hty2
    rw [countKind_cons, hp.1 ty hty1 hty2]
    have hz : (a.atype == ty) = false := by
      rw [beq_eq_false_iff_ne]
      rcases h with h' | h' <;> rw [h']
      · exact fun he => hty1 he.symm
      · exact fun he => hty2 he.symm
    rw [hz]
    simp
  · intro x hx hov
    rcases List.mem_cons.mp hx with rfl | hx'
    · exact absurd hov (mdKind_not_overlay x h)
    · exact hp.2 x hx' hov

/-- Replacing a markdown-kind head by a same-kind attribute preserves the
overlays. -/
theorem overlayPreserved_cons_md (a A : Attr) {t t' : List Attr}
    (h : mdKind a) (hA : A.atype = a.atype) (hp : overlayPreserved t t') :
    overlayPreserved (a :: t) (A :: t') := by
  constructor
  · intro ty hty1 hty2
    rw [countKind_cons, countKind_cons, hp.1 ty hty1 hty2, hA]
  · intro x hx hov
    rcases List.mem_cons.mp hx with rfl | hx'
    · exact absurd hov (mdKind_not_overlay x h)
    · exact List.mem_cons_of_mem A (hp.2 x hx' hov)

/-- Opening a fresh italic attribute preserves the scan invariant. -/
theorem scanInv_open_italic (l : List Attr) (b i : Option Nat) (n v : Nat)
    (h : scanInv l b i n) :
    scanInv
      (attr_list_insert l
        { id := n, atype := AttrType.style, start_index := v, end_index := ATTR_END })
      b (some n) (n + 1) := by
  obtain ⟨h1, h2, h3⟩ := h
  refine ⟨?_, ?_, ?_⟩
  · intro a ha
    rcases (mem_attr_list_insert _ _ _).mp ha with rfl | hal
    · exact Nat.lt_succ_self n
    · exact Nat.lt_succ_of_lt (h1 a hal)
  · intro j hj
    obtain ⟨hlt, hty⟩ := h2 j hj
    refine ⟨Nat.lt_succ_of_lt hlt, ?_⟩
    intro a ha haid
    rcases (mem_attr_list_insert _ _ _).mp ha with rfl | hal
    · exfalso
      have : n = j := haid
      omega
    · exact hty a hal haid
  · intro j hj
    have hjn : j = n := by
      injection hj with h'
      exact h'.symm
    subst hjn
    refine ⟨Nat.lt_succ_self j, ?_⟩
    intro a ha haid
    rcases (mem_attr_list_insert _ _ _).mp ha with rfl | hal
    · rfl
    · exact absurd haid (Nat.ne_of_lt (h1 a hal))

/-- Closing the open italic attribute preserves the scan invariant. -/
theorem scanInv_close_italic (l : List Attr) (b : Option Nat) (n j v : Nat)
    (h : scanInv l b (some j) n) :
    scanInv (setAttrEnd l j v) b none n := by
  obtain ⟨h1, h2, _⟩ := h
  refine ⟨?_, ?_, fun k hk => nomatch hk⟩
  · intro a ha
    obtain ⟨x, hx, rfl⟩ := List.mem_map.mp ha
    by_cases hxj : x.id = j
    · rw [if_pos hxj]
      exact h1 x hx
    · rw [if_neg hxj]
      exact h1 x hx
  · intro k hk
    obtain ⟨hlt, hty⟩ := h2 k hk
    refine ⟨hlt, ?_⟩
    intro a ha haid
    obtain ⟨x, hx, rfl⟩ := List.mem_map.mp ha
    by_cases hxj : x.id = j
    · rw [if_pos hxj] at haid ⊢
      exact hty x hx haid
    · rw [if_neg hxj] at haid ⊢
      exact hty x hx haid

/-- Opening a fresh bold attribute preserves the scan invariant. -/
theorem scanInv_open_bold (l : List Attr) (b i : Option Nat) (n v : Nat)
    (h : scanInv l b i n) :
    scanInv
      (attr_list_insert l
        { id := n, atype := AttrType.weight, start_index := v, end_index := ATTR_END })
      (some n) i (n + 1) := by
  obtain ⟨h1, h2, h3⟩ := h
  refine ⟨?_, ?_, ?_⟩
  · intro a ha
    rcases (mem_attr_list_insert _ _ _).mp ha with rfl | hal
    · exact Nat.lt_succ_self n
    · exact Nat.lt_succ_of_lt (h1 a hal)
  · intro j hj
    have hjn : j = n := by
      injection hj with h'
      exact h'.symm
    subst hjn
    refine ⟨Nat.lt_succ_self j, ?_⟩
    intro a ha haid
    rcases (mem_attr_list_insert _ _ _).mp ha with rfl | hal
    · rfl
    · exact absurd haid (Nat.ne_of_lt (h1 a hal))
  · intro j hj
    obtain ⟨hlt, hty⟩ := h3 j hj
    refine ⟨Nat.lt_succ_of_lt hlt, ?_⟩
    intro a ha haid
    rcases (mem_attr_list_insert _ _ _).mp ha with rfl | hal
    · exfalso
      have : n = j := haid
      omega
    · exact hty a hal haid

/-- Closing the open bold attribute preserves the scan invariant. -/
theorem scanInv_close_bold (l : List Attr) (i : Option Nat) (n j v : Nat)
    (h : scanInv l (some j) i n) :
    scanInv (setAttrEnd l j v) none i n := by
  obtain ⟨h1, _, h3⟩ := h
  refine ⟨?_, fun k hk => Option.noConfusion hk, ?_⟩
  · intro a ha
    obtain ⟨x, hx, rfl⟩ := List.mem_map.mp ha
    by_cases hxj : x.id = j
    · rw [if_pos hxj]
      exact h1 x hx
    · rw [if_neg hxj]
      exact h1 x hx
  · intro k hk
    obtain ⟨hlt, hty⟩ := h3 k hk
    refine ⟨hlt, ?_⟩
    intro a ha haid
    obtain ⟨x, hx, rfl⟩ := List.mem_map.mp ha
    by_cases hxj : x.id = j
    · rw [if_pos hxj] at haid ⊢
      exact hty x hx haid
    · rw [if_neg hxj] at haid ⊢
      exact hty x hx haid

/-- The underscore half of the loop body keeps the scan invariant and the
overlays. -/
theorem mdStepUnderscore_preserves (c bytePos : Nat) (st : MarkdownState)
    (h : mdInv st) :
    mdInv (mdStepUnderscore c bytePos st) ∧
    overlayPreserved st.attr_list (mdStepUnderscore c bytePos st).attr_list := by
  obtain ⟨h1, h2, h3⟩ := id h
  unfold mdStepUnderscore
  by_cases hc : c = UNDERSCORE
  · rw [if_pos hc]
    cases hi : st.italic with
    | none =>
      constructor
      · exact scanInv_open_italic st.attr_list st.bold st.italic st.nextId
          (guint bytePos) h
      · exact overlayPreserved_insert _ _ (Or.inl rfl)
    | some j =>
      constructor
      · refine scanInv_close_italic st.attr_list st.bold st.nextId j
          (guint (bytePos + 1)) ⟨h1, h2, ?_⟩
        intro k hk
        exact h3 k (by rw [hi]; exact hk)
      · apply overlayPreserved_setAttrEnd
        intro x hx hxj
        exact style_not_overlay x ((h3 j hi).2 x hx hxj)
  · rw [if_neg hc]
    exact ⟨h, overlayPreserved_refl _⟩

/-- The asterisk half of the loop body keeps the scan invariant and the
overlays. -/
theorem mdStepAsterisk_preserves (c bytePos prevc : Nat) (st : MarkdownState)
    (h : mdInv st) :
    mdInv (mdStepAsterisk c bytePos prevc st) ∧
    overlayPreserved st.attr_list (mdStepAsterisk c bytePos prevc st).attr_list := by
  obtain ⟨h1, h2, h3⟩ := id h
  unfold mdStepAsterisk
  by_cases hc : c = ASTERISK ∧ prevc = c
  · rw [if_pos hc]
    cases hb : st.bold with
    | none =>
      constructor
      · exact scanInv_open_bold st.attr_list st.bold st.italic st.nextId
          (guint (bytePos - 1)) h
      · exact overlayPreserved_insert _ _ (Or.inr rfl)
    | some j =>
      constructor
      · refine scanInv_close_bold st.attr_list st.italic st.nextId j
          (guint (bytePos + 1)) ⟨h1, ?_, h3⟩
        intro k hk
        exact h2 k (by rw [hb]; exact hk)
      · apply overlayPreserved_setAttrEnd
        intro x hx hxj
        exact weight_not_overlay x ((h2 j hb).2 x hx hxj)
  · rw [if_neg hc]
    exact ⟨h, overlayPreserved_refl _⟩

/-- The whole loop body keeps the scan invariant and the overlays. -/
theorem mdStep_preserves (c bytePos prevc : Nat) (st : MarkdownState)
    (h : mdInv st) :
    mdInv (mdStep c bytePos prevc st) ∧
    overlayPreserved st.attr_list (mdStep c bytePos prevc st).attr_list := by
  obtain ⟨hu1, hu2⟩ := mdStepUnderscore_preserves c bytePos st h
  obtain ⟨ha1, ha2⟩ := mdStepAsterisk_preserves c bytePos prevc _ hu1
  exact ⟨ha1, overlayPreserved_trans hu2 ha2⟩

/-- The scan loop keeps the scan invariant and the overlays. -/
theorem mdScanAux_preserves (rest : List Nat) :
    ∀ (pos bytePos prevc : Nat) (st : MarkdownState), mdInv st →
      mdInv (mdScanAux rest pos bytePos prevc st) ∧
      overlayPreserved st.attr_list (mdScanAux rest pos bytePos prevc st).attr_list := by
  induction rest with
  | nil =>
    intro pos bytePos prevc st h
    exact ⟨h, overlayPreserved_refl _⟩
  | cons c rest ih =>
    intro pos bytePos prevc st h
    by_cases hc0 : c = 0
    · simp only [mdScanAux]
      rw [if_pos hc0]
      exact ⟨h, overlayPreserved_refl _⟩
    · simp only [mdScanAux]
      rw [if_neg hc0]
      have hstep := mdStep_preserves c bytePos prevc st h
      have hinv2 : mdInv { mdStep c bytePos prevc st with pos := pos + 1 } := hstep.1
      obtain ⟨ha, hb⟩ := ih (pos + 1) (bytePos + utf8Len c) c _ hinv2
      exact ⟨ha, overlayPreserved_trans hstep.2 hb⟩

/-- `markdown_attrs` keeps the scan invariant and the overlays. -/
theorem markdown_attrs_overlays (st st' : MarkdownState) (s : List Nat)
    (hInv : mdInv st) (h : markdown_attrs st s = some st') :
    mdInv st' ∧ overlayPreserved st.attr_list st'.attr_list := by
  unfold markdown_attrs at h
  split at h
  · injection h with h'
    subst h'
    exact ⟨hInv, overlayPreserved_refl _⟩
  · split at h
    · exact Option.noConfusion h
    · injection h with h'
      subst h'
      exact mdScanAux_preserves _ _ _ _ _ hInv

/-- The backspace filter pass keeps the overlays, for any incoming open
pointers. -/
theorem attr_list_filter_backspace_overlay (last : Nat) :
    ∀ (l : List Attr) (b i : Option Nat),
      overlayPreserved l (attr_list_filter_backspace last l b i).1 := by
  intro l
  induction l with
  | nil =>
    intro b i
    exact overlayPreserved_refl _
  | cons a t ih =>
    intro b i
    by_cases hmd : a.atype = AttrType.style ∨ a.atype = AttrType.weight
    · by_cases hr : attrCutoff last a ≤ a.start_index
      · simp only [attr_list_filter_backspace, backspace_filter, hmd, hr, if_true, ite_true]
        exact overlayPreserved_skip_md a hmd (ih _ _)
      · simp only [attr_list_filter_backspace, backspace_filter, hmd, hr, if_true, ite_true,
          if_false, ite_false]
        refine overlayPreserved_cons_md a _ hmd ?_ (ih _ _)
        split <;> rfl
    · simp only [attr_list_filter_backspace, backspace_filter, hmd, if_false, ite_false]
      exact overlayPreserved_cons a (ih _ _)

/-- `markdown_attrs_backspace` keeps the overlays. -/
theorem markdown_attrs_backspace_overlays (st st' : MarkdownState) (s s' : List Nat)
    (h : markdown_attrs_backspace st s = some (st', s')) :
    overlayPreserved st.attr_list st'.attr_list := by
  unfold markdown_attrs_backspace at h
  split at h
  · exact Option.noConfusion h
  · split at h
    · injection h with h'
      injection h' with h1 h2
      subst h1
      exact overlayPreserved_refl _
    · injection h with h'
      injection h' with h1 h2
      subst h1
      exact attr_list_filter_backspace_overlay _ st.attr_list st.bold st.italic

/-- A map that rewrites only the attribute with a designated id, without
changing any attribute's kind, preserves kind counts. -/
theorem countKind_guardMap (ty : AttrType) (l : List Attr) (K : Nat)
    (g : Attr → Attr) (hg : ∀ x, (g x).atype = x.atype) :
    countKind ty (l.map (fun a => if a.id = K then g a else a)) = countKind ty l := by
  unfold countKind
  rw [List.countP_map]
  apply List.countP_congr
  intro x _
  by_cases hx : x.id = K
  · simp [Function.comp, hx, hg x]
  · simp [Function.comp, hx]

/-- An attribute whose id is not the designated one passes through such a
map unchanged. -/
theorem mem_guardMap_of_ne (l : List Attr) (K : Nat) (g : Attr → Attr)
    (a : Attr) (ha : a ∈ l) (hne : a.id ≠ K) :
    a ∈ l.map (fun x => if x.id = K then g x else x) :=
  List.mem_map.mpr ⟨a, ha, by rw [if_neg hne]⟩

/-- C3 counterexample: `simplify_attr_list` has no kind guard, so on the
freshly constructed engine state — where both reserved overlay spans are
degenerate `[0, 0)` — it removes them both, leaving an empty span list,
although they were present (once each) before. -/
theorem c3_simplify_removes_overlays :
    simplify_attr_list markdown_state_new.attr_list = [] ∧
    countKind AttrType.alpha markdown_state_new.attr_list = 1 ∧
    countKind AttrType.underline markdown_state_new.attr_list = 1 := by
  refine ⟨by decide, by decide, by decide⟩

/-- C3 amended: the CursorHighlight and ComposeUnderline spans are created
exactly once at engine construction; `markdown_attrs` (under the engine's
pointer invariants, which construction establishes and the scan preserves)
and `markdown_attrs_backspace` never remove, duplicate, or modify them;
the overlay show/hide operations mutate only their own span in place and
leave every other attribute untouched.  `simplify_attr_list`, however,
removes them whenever they are degenerate (`start_index = end_index`). -/
theorem c3_overlay_permanence_amended :
    (countKind AttrType.alpha markdown_state_new.attr_list = 1 ∧
     countKind AttrType.underline markdown_state_new.attr_list = 1 ∧
     mdInv markdown_state_new) ∧
    (∀ (st st' : MarkdownState) (s : List Nat), mdInv st →
      markdown_attrs st s = some st' →
      mdInv st' ∧ overlayPreserved st.attr_list st'.attr_list) ∧
    (∀ (st st' : MarkdownState) (s s' : List Nat),
      markdown_attrs_backspace st s = some (st', s') →
      overlayPreserved st.attr_list st'.attr_list) ∧
    (∀ (st : MarkdownState) (s : List Nat) (ty : AttrType),
      countKind ty (setup_cursor st s).1.attr_list = countKind ty st.attr_list ∧
      countKind ty (cleanup_cursor st s).1.attr_list = countKind ty st.attr_list) ∧
    (∀ (st : MarkdownState) (s : List Nat), ∀ a ∈ st.attr_list, a.id ≠ cursorAlphaId →
      a ∈ (setup_cursor st s).1.attr_list ∧ a ∈ (cleanup_cursor st s).1.attr_list) ∧
    (∀ (st : MarkdownState) (b e : Nat) (ty : AttrType),
      countKind ty (setup_compose st b e).attr_list = countKind ty st.attr_list ∧
      countKind ty (cleanup_compose st).attr_list = countKind ty st.attr_list) ∧
    (∀ (st : MarkdownState) (b e : Nat), ∀ a ∈ st.attr_list, a.id ≠ composeUnderlineId →
      a ∈ (setup_compose st b e).attr_list ∧ a ∈ (cleanup_compose st).attr_list) := by
  refine ⟨⟨by decide, by decide, by decide, ?_, ?_⟩, ?_, ?_, ?_, ?_, ?_, ?_⟩
  · exact fun j h => Option.noConfusion h
  · exact fun j h => Option.noConfusion h
  · intro st st' s hInv h
    exact markdown_attrs_overlays st st' s hInv h
  · intro st st' s s' h
    exact markdown_attrs_backspace_overlays st st' s s' h
  · intro st s ty
    constructor
    · exact countKind_guardMap ty st.attr_list cursorAlphaId
        (fun x => { x with start_index := guint (byteLen s), end_index := guint (byteLen s + 1) })
        (fun x => rfl)
    · exact countKind_guardMap ty st.attr_list cursorAlphaId
        (fun x => { x with start_index := 0, end_index := 0 }) (fun x => rfl)
  · intro st s a ha hne
    constructor
    · exact mem_guardMap_of_ne st.attr_list cursorAlphaId _ a ha hne
    · exact mem_guardMap_of_ne st.attr_list cursorAlphaId _ a ha hne
  · intro st b e ty
    constructor
    · exact countKind_guardMap ty st.attr_list composeUnderlineId
        (fun x => { x with start_index := guint b, end_index := guint e }) (fun x => rfl)
    · exact countKind_guardMap ty st.attr_list composeUnderlineId
        (fun x => { x with start_index := 0, end_index := 0 }) (fun x => rfl)
  · intro st b e a ha hne
    constructor
    · exact mem_guardMap_of_ne st.attr_list composeUnderlineId _ a ha hne
    · exact mem_guardMap_of_ne st.attr_list composeUnderlineId _ a ha hne

/-- Witness for `c3_overlay_permanence_amended`: the engine invariant holds
at construction, and one extend over `a` preserves the overlays. -/
theorem c3_overlay_permanence_witness :
    mdInv markdown_state_new ∧
    markdown_attrs markdown_state_new [97] =
      some (mkState 1 markdown_state_new.attr_list none none 2) ∧
    overlayPreserved markdown_state_new.attr_list
      (mkState 1 markdown_state_new.attr_list none none 2).attr_list := by
  have h1 : mdInv markdown_state_new := c3_overlay_permanence_amended.1.2.2
  have h2 : markdown_attrs markdown_state_new [97] =
      some (mkState 1 markdown_state_new.attr_list none none 2) := by decide
  exact ⟨h1, h2, (c3_overlay_permanence_amended.2.1 _ _ _ h1 h2).2⟩

/-- Constructor disequality used to reduce the filter's kind tests. -/
theorem style_ne_weight : ¬ (AttrType.style = AttrType.weight) :=
  fun h => AttrType.noConfusion h

/-- Constructor disequality used to reduce the filter's kind tests. -/
theorem weight_ne_style : ¬ (AttrType.weight = AttrType.style) :=
  fun h => AttrType.noConfusion h

/-- `attrCutoff` on a weight attribute is the decremented `last`. -/
theorem attrCutoff_weight (last : Nat) (x : Attr) (hw : x.atype = AttrType.weight) :
    attrCutoff last x = guintDec last := by
  unfold attrCutoff
  rw [hw]
  simp

/-- `attrCutoff` on a style attribute is `last` itself. -/
theorem attrCutoff_style (last : Nat) (x : Attr) (hs : x.atype = AttrType.style) :
    attrCutoff last x = last := by
  unfold attrCutoff
  rw [hs]
  rfl

/-- Filter-pass reduction: a non-markdown head is kept untouched and the
pointers pass through. -/
theorem bsp_cons_nonmd (last : Nat) (x : Attr) (t : List Attr) (b i : Option Nat)
    (hmd : ¬(x.atype = AttrType.style ∨ x.atype = AttrType.weight)) :
    attr_list_filter_backspace last (x :: t) b i =
      (x :: (attr_list_filter_backspace last t b i).1,
        (attr_list_filter_backspace last t b i).2) := by
  simp only [attr_list_filter_backspace, backspace_filter, hmd, if_false, ite_false]

/-- Filter-pass reduction: a style head at or past the cutoff is removed;
the bold pointer is only cleared if it aliased this attribute, the italic
pointer is first re-established if the end survives the cutoff and then
cleared if it aliases this attribute. -/
theorem bsp_cons_style_removed (last : Nat) (x : Attr) (t : List Attr) (b i : Option Nat)
    (hs : x.atype = AttrType.style) (hr : last ≤ x.start_index) :
    attr_list_filter_backspace last (x :: t) b i =
      attr_list_filter_backspace last t
        (if b = some x.id then none else b)
        (if (if last ≤ x.end_index then some x.id else i) = some x.id then none
          else if last ≤ x.end_index then some x.id else i) := by
  have hcut := attrCutoff_style last x hs
  simp only [attr_list_filter_backspace, backspace_filter, hs, hcut, hr, style_ne_weight,
    true_or, or_true, if_true, ite_true, true_and, and_true, false_and, and_false,
    if_false, ite_false]

/-- Filter-pass reduction: a style head before the cutoff is kept (possibly
converted to unbounded); the italic pointer is re-established if the end
survives the cutoff. -/
theorem bsp_cons_style_kept (last : Nat) (x : Attr) (t : List Attr) (b i : Option Nat)
    (hs : x.atype = AttrType.style) (hr : ¬ last ≤ x.start_index) :
    attr_list_filter_backspace last (x :: t) b i =
      ((if last ≤ x.end_index then { x with end_index := ATTR_END } else x) ::
        (attr_list_filter_backspace last t b
          (if last ≤ x.end_index then some x.id else i)).1,
        (attr_list_filter_backspace last t b
          (if last ≤ x.end_index then some x.id else i)).2) := by
  have hcut := attrCutoff_style last x hs
  simp only [attr_list_filter_backspace, backspace_filter, hs, hcut, hr, style_ne_weight,
    true_or, or_true, if_true, ite_true, true_and, and_true, false_and, and_false,
    if_false, ite_false]

/-- Filter-pass reduction: a weight head at or past the (decremented)
cutoff is removed, with the symmetric pointer handling. -/
theorem bsp_cons_weight_removed (last : Nat) (x : Attr) (t : List Attr) (b i : Option Nat)
    (hw : x.atype = AttrType.weight) (hr : guintDec last ≤ x.start_index) :
    attr_list_filter_backspace last (x :: t) b i =
      attr_list_filter_backspace last t
        (if (if guintDec last ≤ x.end_index then some x.id else b) = some x.id then none
          else if guintDec last ≤ x.end_index then some x.id else b)
        (if i = some x.id then none else i) := by
  have hcut := attrCutoff_weight last x hw
  simp only [attr_list_filter_backspace, backspace_filter, hw, hcut, hr, weight_ne_style,
    true_or, or_true, if_true, ite_true, true_and, and_true, false_and, and_false,
    if_false, ite_false]

/-- Filter-pass reduction: a weight head before the (decremented) cutoff is
kept (possibly converted to unbounded). -/
theorem bsp_cons_weight_kept (last : Nat) (x : Attr) (t : List Attr) (b i : Option Nat)
    (hw : x.atype = AttrType.weight) (hr : ¬ guintDec last ≤ x.start_index) :
    attr_list_filter_backspace last (x :: t) b i =
      ((if guintDec last ≤ x.end_index then { x with end_index := ATTR_END } else x) ::
        (attr_list_filter_backspace last t
          (if guintDec last ≤ x.end_index then some x.id else b) i).1,
        (attr_list_filter_backspace last t
          (if guintDec last ≤ x.end_index then some x.id else b) i).2) := by
  have hcut := attrCutoff_weight last x hw
  simp only [attr_list_filter_backspace, backspace_filter, hw, hcut, hr, weight_ne_style,
    true_or, or_true, if_true, ite_true, true_and, and_true, false_and, and_false,
    if_false, ite_false]

/-- Unfolding of `idsOf` on a cons cell. -/
theorem idsOf_cons (x : Attr) (t : List Attr) : idsOf (x :: t) = x.id :: idsOf t := rfl

/-- List-level characterization of one backspace filter pass, for any
incoming open pointers: overlay attributes survive untouched; a markdown
attribute entirely below its cutoff survives untouched; one straddling the
cutoff (start below, end at or above) survives converted to unbounded; one
with start at or above the cutoff is removed (its id disappears, given
distinct ids); and every output attribute is an input attribute, possibly
converted. -/
theorem bsp_list_spec (last : Nat) :
    ∀ (l : List Attr) (b i : Option Nat),
      (∀ a ∈ l, ¬ mdKind a → a ∈ (attr_list_filter_backspace last l b i).1) ∧
      (∀ a ∈ l, mdKind a → a.start_index < attrCutoff last a →
        a.end_index < attrCutoff last a → a ∈ (attr_list_filter_backspace last l b i).1) ∧
      (∀ a ∈ l, mdKind a → a.start_index < attrCutoff last a →
        attrCutoff last a ≤ a.end_index →
        { a with end_index := ATTR_END } ∈ (attr_list_filter_backspace last l b i).1) ∧
      ((idsOf l).Nodup → ∀ a ∈ l, mdKind a → attrCutoff last a ≤ a.start_index →
        a.id ∉ idsOf (attr_list_filter_backspace last l b i).1) ∧
      (∀ a' ∈ (attr_list_filter_backspace last l b i).1,
        ∃ a ∈ l, a' = a ∨ a' = { a with end_index := ATTR_END }) := by
  intro l
  induction l with
  | nil =>
    intro b i
    refine ⟨?_, ?_, ?_, ?_, ?_⟩
    · intro a ha
      exact absurd ha (List.not_mem_nil a)
    · intro a ha
      exact absurd ha (List.not_mem_nil a)
    · intro a ha
      exact absurd ha (List.not_mem_nil a)
    · intro _ a ha
      exact absurd ha (List.not_mem_nil a)
    · intro a' ha'
      exact absurd ha' (List.not_mem_nil a')
  | cons x t ih =>
    intro b i
    by_cases hmd : mdKind x
    · rcases id hmd with hs | hw
      · -- style head
        by_cases hr : last ≤ x.start_index
        · -- removed
          obtain ⟨B, I, hred⟩ :
              ∃ B I, attr_list_filter_backspace last (x :: t) b i =
                attr_list_filter_backspace last t B I :=
            ⟨_, _, bsp_cons_style_removed last x t b i hs hr⟩
          rw [hred]
          obtain ⟨ih1, ih2, ih3, ih4, ih5⟩ := ih B I
          refine ⟨?_, ?_, ?_, ?_, ?_⟩
          · intro a ha hnmd
            rcases List.mem_cons.mp ha with rfl | hat
            · exact absurd hmd hnmd
            · exact ih1 a hat hnmd
          · intro a ha hamd h1 h2
            rcases List.mem_cons.mp ha with rfl | hat
            · rw [attrCutoff_style last a hs] at h1
              omega
            · exact ih2 a hat hamd h1 h2
          · intro a ha hamd h1 h2
            rcases List.mem_cons.mp ha with rfl | hat
            · rw [attrCutoff_style last a hs] at h1
              omega
            · exact ih3 a hat hamd h1 h2
          · intro hnd a ha hamd hstart
            rw [idsOf_cons] at hnd
            have hndt := (List.nodup_cons.mp hnd).2
            have hxnot := (List.nodup_cons.mp hnd).1
            rcases List.mem_cons.mp ha with rfl | hat
            · intro hin
              obtain ⟨a', ha', hid⟩ := List.mem_map.mp hin
              obtain ⟨y, hy, hcase⟩ := ih5 a' ha'
              have hyid : y.id = a.id := by
                rcases hcase with rfl | rfl
                · exact hid
                · exact hid
              exact hxnot (hyid ▸ List.mem_map_of_mem (fun z => z.id) hy)
            · exact ih4 hndt a hat hamd hstart
          · intro a' ha'
            obtain ⟨y, hy, hc⟩ := ih5 a' ha'
            exact ⟨y, List.mem_cons_of_mem x hy, hc⟩
        · -- kept
          obtain ⟨I, hred⟩ :
              ∃ I, attr_list_filter_backspace last (x :: t) b i =
                ((if last ≤ x.end_index then { x with end_index := ATTR_END } else x) ::
                  (attr_list_filter_backspace last t b I).1,
                  (attr_list_filter_backspace last t b I).2) :=
            ⟨_, bsp_cons_style_kept last x t b i hs hr⟩
          rw [hred]
          obtain ⟨ih1, ih2, ih3, ih4, ih5⟩ := ih b I
          refine ⟨?_, ?_, ?_, ?_, ?_⟩
          · intro a ha hnmd
            rcases List.mem_cons.mp ha with rfl | hat
            · exact absurd hmd hnmd
            · exact List.mem_cons_of_mem _ (ih1 a hat hnmd)
          · intro a ha hamd h1 h2
            rcases List.mem_cons.mp ha with rfl | hat
            · rw [attrCutoff_style last a hs] at h2
              have hne : ¬ last ≤ a.end_index := by omega
              rw [if_neg hne]
              exact List.mem_cons_self a _
            · exact List.mem_cons_of_mem _ (ih2 a hat hamd h1 h2)
          · intro a ha hamd h1 h2
            rcases List.mem_cons.mp ha with rfl | hat
            · rw [attrCutoff_style last a hs] at h2
              rw [if_pos h2]
              exact List.mem_cons_self _ _
            · exact List.mem_cons_of_mem _ (ih3 a hat hamd h1 h2)
          · intro hnd a ha hamd hstart
            rw [idsOf_cons] at hnd
            have hndt := (List.nodup_cons.mp hnd).2
            have hxnot := (List.nodup_cons.mp hnd).1
            rcases List.mem_cons.mp ha with rfl | hat
            · rw [attrCutoff_style last a hs] at hstart
              exact absurd hstart hr
            · intro hin
              rcases List.mem_cons.mp hin with heq | hin2
              · have hAid : (if last ≤ x.end_index then
                    { x with end_index := ATTR_END } else x).id = x.id := by
                  split <;> rfl
                simp only [] at heq
                rw [hAid] at heq
                exact hxnot (heq ▸ List.mem_map_of_mem (fun z => z.id) hat)
              · exact ih4 hndt a hat hamd hstart hin2
          · intro a' ha'
            rcases List.mem_cons.mp ha' with rfl | ha2
            · refine ⟨x, List.mem_cons_self x t, ?_⟩
              by_cases he : last ≤ x.end_index
              · rw [if_pos he]
                exact Or.inr rfl
              · rw [if_neg he]
                exact Or.inl rfl
            · obtain ⟨y, hy, hc⟩ := ih5 a' ha2
              exact ⟨y, List.mem_cons_of_mem x hy, hc⟩
      · -- weight head
        by_cases hr : guintDec last ≤ x.start_index
        · -- removed
          obtain ⟨B, I, hred⟩ :
              ∃ B I, attr_list_filter_backspace last (x :: t) b i =
                attr_list_filter_backspace last t B I :=
            ⟨_, _, bsp_cons_weight_removed last x t b i hw hr⟩
          rw [hred]
          obtain ⟨ih1, ih2, ih3, ih4, ih5⟩ := ih B I
          refine ⟨?_, ?_, ?_, ?_, ?_⟩
          · intro a ha hnmd
            rcases List.mem_cons.mp ha with rfl | hat
            · exact absurd hmd hnmd
            · exact ih1 a hat hnmd
          · intro a ha hamd h1 h2
            rcases List.mem_cons.mp ha with rfl | hat
            · rw [attrCutoff_weight last a hw] at h1
              omega
            · exact ih2 a hat hamd h1 h2
          · intro a ha hamd h1 h2
            rcases List.mem_cons.mp ha with rfl | hat
            · rw [attrCutoff_weight last a hw] at h1
              omega
            · exact ih3 a hat hamd h1 h2
          · intro hnd a ha hamd hstart
            rw [idsOf_cons] at hnd
            have hndt := (List.nodup_cons.mp hnd).2
            have hxnot := (List.nodup_cons.mp hnd).1
            rcases List.mem_cons.mp ha with rfl | hat
            · intro hin
              obtain ⟨a', ha', hid⟩ := List.mem_map.mp hin
              obtain ⟨y, hy, hcase⟩ := ih5 a' ha'
              have hyid : y.id = a.id := by
                rcases hcase with rfl | rfl
                · exact hid
                · exact hid
              exact hxnot (hyid ▸ List.mem_map_of_mem (fun z => z.id) hy)
            · exact ih4 hndt a hat hamd hstart
          · intro a' ha'
            obtain ⟨y, hy, hc⟩ := ih5 a' ha'
            exact ⟨y, List.mem_cons_of_mem x hy, hc⟩
        · -- kept
          obtain ⟨B, hred⟩ :
              ∃ B, attr_list_filter_backspace last (x :: t) b i =
                ((if guintDec last ≤ x.end_index then { x with end_index := ATTR_END } else x) ::
                  (attr_list_filter_backspace last t B i).1,
                  (attr_list_filter_backspace last t B i).2) :=
            ⟨_, bsp_cons_weight_kept last x t b i hw hr⟩
          rw [hred]
          obtain ⟨ih1, ih2, ih3, ih4, ih5⟩ := ih B i
          refine ⟨?_, ?_, ?_, ?_, ?_⟩
          · intro a ha hnmd
            rcases List.mem_cons.mp ha with rfl | hat
            · exact absurd hmd hnmd
            · exact List.mem_cons_of_mem _ (ih1 a hat hnmd)
          · intro a ha hamd h1 h2
            rcases List.mem_cons.mp ha with rfl | hat
            · rw [attrCutoff_weight last a hw] at h2
              have hne : ¬ guintDec last ≤ a.end_index := by omega
              rw [if_neg hne]
              exact List.mem_cons_self a _
            · exact List.mem_cons_of_mem _ (ih2 a hat hamd h1 h2)
          · intro a ha hamd h1 h2
            rcases List.mem_cons.mp ha with rfl | hat
            · rw [attrCutoff_weight last a hw] at h2
              rw [if_pos h2]
              exact List.mem_cons_self _ _
            · exact List.mem_cons_of_mem _ (ih3 a hat hamd h1 h2)
          · intro hnd a ha hamd hstart
            rw [idsOf_cons] at hnd
            have hndt := (List.nodup_cons.mp hnd).2
            have hxnot := (List.nodup_cons.mp hnd).1
            rcases List.mem_cons.mp ha with rfl | hat
            · rw [attrCutoff_weight last a hw] at hstart
              exact absurd hstart hr
            · intro hin
              rcases List.mem_cons.mp hin with heq | hin2
              · have hAid : (if guintDec last ≤ x.end_index then
                    { x with end_index := ATTR_END } else x).id = x.id := by
                  split <;> rfl
                simp only [] at heq
                rw [hAid] at heq
                exact hxnot (heq ▸ List.mem_map_of_mem (fun z => z.id) hat)
              · exact ih4 hndt a hat hamd hstart hin2
          · intro a' ha'
            have hsplit : a' = (if guintDec last ≤ x.end_index then
                { x with end_index := ATTR_END } else x) ∨
                a' ∈ (attr_list_filter_backspace last t B i).1 := List.mem_cons.mp ha'
            rcases hsplit with heq | ha2
            · refine ⟨x, List.mem_cons_self x t, ?_⟩
              by_cases he : guintDec last ≤ x.end_index
              · rw [if_pos he] at heq
                exact Or.inr heq
              · rw [if_neg he] at heq
                exact Or.inl heq
            · obtain ⟨y, hy, hc⟩ := ih5 a' ha2
              exact ⟨y, List.mem_cons_of_mem x hy, hc⟩
    · -- overlay head
      rw [bsp_cons_nonmd last x t b i hmd]
      obtain ⟨ih1, ih2, ih3, ih4, ih5⟩ := ih b i
      refine ⟨?_, ?_, ?_, ?_, ?_⟩
      · intro a ha hnmd
        rcases List.mem_cons.mp ha with rfl | hat
        · exact List.mem_cons_self a _
        · exact List.mem_cons_of_mem _ (ih1 a hat hnmd)
      · intro a ha hamd h1 h2
        rcases List.mem_cons.mp ha with rfl | hat
        · exact absurd hamd hmd
        · exact List.mem_cons_of_mem _ (ih2 a hat hamd h1 h2)
      · intro a ha hamd h1 h2
        rcases List.mem_cons.mp ha with rfl | hat
        · exact absurd hamd hmd
        · exact List.mem_cons_of_mem _ (ih3 a hat hamd h1 h2)
      · intro hnd a ha hamd hstart
        rw [idsOf_cons] at hnd
        have hndt := (List.nodup_cons.mp hnd).2
        have hxnot := (List.nodup_cons.mp hnd).1
        rcases List.mem_cons.mp ha with rfl | hat
        · exact absurd hamd hmd
        · intro hin
          rcases List.mem_cons.mp hin with heq | hin2
          · simp only [] at heq
            exact hxnot (heq ▸ List.mem_map_of_mem (fun z => z.id) hat)
          · exact ih4 hndt a hat hamd hstart hin2
      · intro a' ha'
        rcases List.mem_cons.mp ha' with rfl | ha2
        · exact ⟨a', List.mem_cons_self a' t, Or.inl rfl⟩
        · obtain ⟨y, hy, hc⟩ := ih5 a' ha2
          exact ⟨y, List.mem_cons_of_mem x hy, hc⟩

/-- A head that does not match the reopen test is skipped by
`lastReopened`. -/
theorem lastReopened_cons_skip (ty : AttrType) (cf : Nat) (x : Attr) (t : List Attr)
    (hx : ¬ (x.atype = ty ∧ cf ≤ x.end_index)) :
    lastReopened ty cf (x :: t) = lastReopened ty cf t := by
  show (match lastReopened ty cf t with
    | some L => some L
    | none => if x.atype = ty ∧ cf ≤ x.end_index then some x else none) =
    lastReopened ty cf t
  cases hT : lastReopened ty cf t with
  | some L => rfl
  | none => rw [if_neg hx]

/-- With no match in the tail, a matching head is the last reopened
attribute. -/
theorem lastReopened_cons_hit (ty : AttrType) (cf : Nat) (x : Attr) (t : List Attr)
    (hx : x.atype = ty ∧ cf ≤ x.end_index)
    (hT : lastReopened ty cf t = none) :
    lastReopened ty cf (x :: t) = some x := by
  show (match lastReopened ty cf t with
    | some L => some L
    | none => if x.atype = ty ∧ cf ≤ x.end_index then some x else none) = some x
  rw [hT, if_pos hx]

/-- A match in the tail wins over the head (later attributes override
earlier re-establishments). -/
theorem lastReopened_cons_tail (ty : AttrType) (cf : Nat) (x : Attr) (t : List Attr)
    (L : Attr) (hT : lastReopened ty cf t = some L) :
    lastReopened ty cf (x :: t) = some L := by
  show (match lastReopened ty cf t with
    | some L => some L
    | none => if x.atype = ty ∧ cf ≤ x.end_index then some x else none) = some L
  rw [hT]

/-- An existential over a cons whose head fails the predicate reduces to
the tail. -/
theorem exists_cons_of_not_head {P : Attr → Prop} (x : Attr) (t : List Attr)
    (hx : ¬ P x) : (∃ y ∈ x :: t, P y) ↔ (∃ y ∈ t, P y) := by
  constructor
  · rintro ⟨y, hy, hp⟩
    rcases List.mem_cons.mp hy with rfl | hyt
    · exact absurd hp hx
    · exact ⟨y, hyt, hp⟩
  · rintro ⟨y, hy, hp⟩
    exact ⟨y, List.mem_cons_of_mem x hy, hp⟩

/-- Final bold pointer of one backspace filter pass: if some weight
attribute has `end_index` at or above the decremented cutoff, the last such
attribute is re-established (or cleared again, if it was itself removed);
otherwise the incoming pointer survives unless its attribute was removed.
Hypotheses: ids are distinct and the incoming pointer refers only to weight
attributes, as the engine maintains. -/
theorem bsp_bold_ref (last : Nat) :
    ∀ (l : List Attr) (b i : Option Nat),
      (idsOf l).Nodup →
      (∀ x ∈ l, b = some x.id → x.atype = AttrType.weight) →
      (∀ L, lastReopened AttrType.weight (guintDec last) l = some L →
        (attr_list_filter_backspace last l b i).2.1 =
          if L.start_index < guintDec last then some L.id else none) ∧
      (lastReopened AttrType.weight (guintDec last) l = none →
        ((∃ y ∈ l, y.atype = AttrType.weight ∧ guintDec last ≤ y.start_index ∧
            b = some y.id) →
          (attr_list_filter_backspace last l b i).2.1 = none) ∧
        ((¬ ∃ y ∈ l, y.atype = AttrType.weight ∧ guintDec last ≤ y.start_index ∧
            b = some y.id) →
          (attr_list_filter_backspace last l b i).2.1 = b)) := by
  intro l
  induction l with
  | nil =>
    intro b i hnd hbt
    refine ⟨?_, ?_⟩
    · intro L hL
      exact Option.noConfusion hL
    · intro _
      refine ⟨?_, ?_⟩
      · rintro ⟨y, hy, _⟩
        exact absurd hy (List.not_mem_nil y)
      · intro _
        rfl
  | cons x t ih =>
    intro b i hnd hbt
    rw [idsOf_cons] at hnd
    have hndt := (List.nodup_cons.mp hnd).2
    have hxnot := (List.nodup_cons.mp hnd).1
    have hbt_t : ∀ y ∈ t, b = some y.id → y.atype = AttrType.weight :=
      fun y hy => hbt y (List.mem_cons_of_mem x hy)
    by_cases hmd : mdKind x
    · rcases id hmd with hs | hw
      · -- style head: the bold pointer passes through untouched
        have hbx : ¬ b = some x.id := by
          intro hbe
          have hwx := hbt x (List.mem_cons_self x t) hbe
          rw [hs] at hwx
          exact style_ne_weight hwx
        have hskip : lastReopened AttrType.weight (guintDec last) (x :: t) =
            lastReopened AttrType.weight (guintDec last) t := by
          apply lastReopened_cons_skip
          intro hcon
          have hx1 := hcon.1
          rw [hs] at hx1
          exact style_ne_weight hx1
        have hexiff : (∃ y ∈ x :: t, y.atype = AttrType.weight ∧
            guintDec last ≤ y.start_index ∧ b = some y.id) ↔
            (∃ y ∈ t, y.atype = AttrType.weight ∧
              guintDec last ≤ y.start_index ∧ b = some y.id) := by
          apply exists_cons_of_not_head
          intro hcon
          have hx1 := hcon.1
          rw [hs] at hx1
          exact style_ne_weight hx1
        obtain ⟨I2, hred⟩ : ∃ I2,
            (attr_list_filter_backspace last (x :: t) b i).2.1 =
              (attr_list_filter_backspace last t b I2).2.1 := by
          by_cases hr : last ≤ x.start_index
          · exact ⟨_, by rw [bsp_cons_style_removed last x t b i hs hr, if_neg hbx]⟩
          · exact ⟨_, by rw [bsp_cons_style_kept last x t b i hs hr]⟩
        rw [hred]
        obtain ⟨ihA, ihB⟩ := ih b I2 hndt hbt_t
        constructor
        · intro L hL
          rw [hskip] at hL
          exact ihA L hL
        · intro hnone
          rw [hskip] at hnone
          obtain ⟨ihB1, ihB2⟩ := ihB hnone
          constructor
          · intro hex
            exact ihB1 (hexiff.mp hex)
          · intro hnex
            exact ihB2 (fun hex => hnex (hexiff.mpr hex))
      · -- weight head
        by_cases he : guintDec last ≤ x.end_index
        · -- the head re-establishes the bold pointer
          by_cases hr : guintDec last ≤ x.start_index
          · -- and is then removed, clearing it again
            obtain ⟨I2, hred⟩ : ∃ I2,
                (attr_list_filter_backspace last (x :: t) b i).2.1 =
                  (attr_list_filter_backspace last t none I2).2.1 :=
              ⟨_, by rw [bsp_cons_weight_removed last x t b i hw hr, if_pos he, if_pos rfl]⟩
            rw [hred]
            have hbt_none : ∀ y ∈ t, (none : Option Nat) = some y.id →
                y.atype = AttrType.weight := fun y hy h => Option.noConfusion h
            obtain ⟨ihA, ihB⟩ := ih none I2 hndt hbt_none
            cases hT : lastReopened AttrType.weight (guintDec last) t with
            | some L2 =>
              have hcons := lastReopened_cons_tail AttrType.weight (guintDec last) x t L2 hT
              constructor
              · intro L hL
                rw [hcons] at hL
                injection hL with hLL
                subst hLL
                exact ihA L2 hT
              · intro hnone
                rw [hcons] at hnone
                exact Option.noConfusion hnone
            | none =>
              have hcons := lastReopened_cons_hit AttrType.weight (guintDec last) x t ⟨hw, he⟩ hT
              constructor
              · intro L hL
                rw [hcons] at hL
                injection hL with hLL
                subst hLL
                rw [if_neg (by omega)]
                refine (ihB hT).2 ?_
                rintro ⟨y, _, _, _, hcon⟩
                exact Option.noConfusion hcon
              · intro hnone
                rw [hcons] at hnone
                exact Option.noConfusion hnone
          · -- and survives as the re-established pointer
            have hred : (attr_list_filter_backspace last (x :: t) b i).2.1 =
                (attr_list_filter_backspace last t (some x.id) i).2.1 := by
              rw [bsp_cons_weight_kept last x t b i hw hr]
              simp only [he, if_true, ite_true]
            rw [hred]
            have hbt_x : ∀ y ∈ t, some x.id = some y.id → y.atype = AttrType.weight := by
              intro y hy hxy
              injection hxy with hh
              exact absurd (hh ▸ List.mem_map_of_mem (fun z => z.id) hy) hxnot
            obtain ⟨ihA, ihB⟩ := ih (some x.id) i hndt hbt_x
            cases hT : lastReopened AttrType.weight (guintDec last) t with
            | some L2 =>
              have hcons := lastReopened_cons_tail AttrType.weight (guintDec last) x t L2 hT
              constructor
              · intro L hL
                rw [hcons] at hL
                injection hL with hLL
                subst hLL
                exact ihA L2 hT
              · intro hnone
                rw [hcons] at hnone
                exact Option.noConfusion hnone
            | none =>
              have hcons := lastReopened_cons_hit AttrType.weight (guintDec last) x t ⟨hw, he⟩ hT
              constructor
              · intro L hL
                rw [hcons] at hL
                injection hL with hLL
                subst hLL
                rw [if_pos (by omega)]
                refine (ihB hT).2 ?_
                rintro ⟨y, hy, _, _, hxy⟩
                injection hxy with hh
                exact absurd (hh ▸ List.mem_map_of_mem (fun z => z.id) hy) hxnot
              · intro hnone
                rw [hcons] at hnone
                exact Option.noConfusion hnone
        · -- the head does not re-establish the pointer
          have hskip : lastReopened AttrType.weight (guintDec last) (x :: t) =
              lastReopened AttrType.weight (guintDec last) t :=
            lastReopened_cons_skip AttrType.weight (guintDec last) x t
              (fun hcon => he hcon.2)
          by_cases hr : guintDec last ≤ x.start_index
          · -- head removed
            by_cases hbx : b = some x.id
            · -- the incoming pointer aliased this attribute: cleared
              obtain ⟨I2, hred⟩ : ∃ I2,
                  (attr_list_filter_backspace last (x :: t) b i).2.1 =
                    (attr_list_filter_backspace last t none I2).2.1 :=
                ⟨_, by rw [bsp_cons_weight_removed last x t b i hw hr, if_neg he, if_pos hbx]⟩
              rw [hred]
              have hbt_none : ∀ y ∈ t, (none : Option Nat) = some y.id →
                  y.atype = AttrType.weight := fun y hy h => Option.noConfusion h
              obtain ⟨ihA, ihB⟩ := ih none I2 hndt hbt_none
              constructor
              · intro L hL
                rw [hskip] at hL
                exact ihA L hL
              · intro hnone
                rw [hskip] at hnone
                obtain ⟨ihB1, ihB2⟩ := ihB hnone
                constructor
                · intro _
                  refine ihB2 ?_
                  rintro ⟨y, _, _, _, hcon⟩
                  exact Option.noConfusion hcon
                · intro hnex
                  exact absurd ⟨x, List.mem_cons_self x t, hw, hr, hbx⟩ hnex
            · -- the incoming pointer is not aliased: it passes through
              obtain ⟨I2, hred⟩ : ∃ I2,
                  (attr_list_filter_backspace last (x :: t) b i).2.1 =
                    (attr_list_filter_backspace last t b I2).2.1 :=
                ⟨_, by rw [bsp_cons_weight_removed last x t b i hw hr, if_neg he, if_neg hbx]⟩
              rw [hred]
              obtain ⟨ihA, ihB⟩ := ih b I2 hndt hbt_t
              constructor
              · intro L hL
                rw [hskip] at hL
                exact ihA L hL
              · intro hnone
                rw [hskip] at hnone
                obtain ⟨ihB1, ihB2⟩ := ihB hnone
                constructor
                · rintro ⟨y, hy, hyw, hys, hyb⟩
                  rcases List.mem_cons.mp hy with rfl | hyt
                  · exact absurd hyb hbx
                  · exact ihB1 ⟨y, hyt, hyw, hys, hyb⟩
                · intro hnex
                  refine ihB2 ?_
                  intro hex
                  apply hnex
                  obtain ⟨y, hyt, hyw, hys, hyb⟩ := hex
                  exact ⟨y, List.mem_cons_of_mem x hyt, hyw, hys, hyb⟩
          · -- head kept and the pointer passes through
            have hred : (attr_list_filter_backspace last (x :: t) b i).2.1 =
                (attr_list_filter_backspace last t b i).2.1 := by
              rw [bsp_cons_weight_kept last x t b i hw hr]
              simp only [he, if_false, ite_false]
            rw [hred]
            obtain ⟨ihA, ihB⟩ := ih b i hndt hbt_t
            constructor
            · intro L hL
              rw [hskip] at hL
              exact ihA L hL
            · intro hnone
              rw [hskip] at hnone
              obtain ⟨ihB1, ihB2⟩ := ihB hnone
              constructor
              · rintro ⟨y, hy, hyw, hys, hyb⟩
                rcases List.mem_cons.mp hy with rfl | hyt
                · exact absurd hys hr
                · exact ihB1 ⟨y, hyt, hyw, hys, hyb⟩
              · intro hnex
                refine ihB2 ?_
                intro hex
                apply hnex
                obtain ⟨y, hyt, hyw, hys, hyb⟩ := hex
                exact ⟨y, List.mem_cons_of_mem x hyt, hyw, hys, hyb⟩
    · -- overlay head: kept, pointers pass through
      have hskip : lastReopened AttrType.weight (guintDec last) (x :: t) =
          lastReopened AttrType.weight (guintDec last) t :=
        lastReopened_cons_skip AttrType.weight (guintDec last) x t
          (fun hcon => hmd (Or.inr hcon.1))
      rw [bsp_cons_nonmd last x t b i hmd]
      obtain ⟨ihA, ihB⟩ := ih b i hndt hbt_t
      constructor
      · intro L hL
        rw [hskip] at hL
        exact ihA L hL
      · intro hnone
        rw [hskip] at hnone
        obtain ⟨ihB1, ihB2⟩ := ihB hnone
        constructor
        · rintro ⟨y, hy, hyw, hys, hyb⟩
          rcases List.mem_cons.mp hy with rfl | hyt
          · exact absurd (Or.inr hyw) hmd
          · exact ihB1 ⟨y, hyt, hyw, hys, hyb⟩
        · intro hnex
          refine ihB2 ?_
          intro hex
          apply hnex
          obtain ⟨y, hyt, hyw, hys, hyb⟩ := hex
          exact ⟨y, List.mem_cons_of_mem x hyt, hyw, hys, hyb⟩

/-- Final italic pointer of one backspace filter pass: mirror of
`bsp_bold_ref` for style attributes with the undecremented cutoff. -/
theorem bsp_italic_ref (last : Nat) :
    ∀ (l : List Attr) (b i : Option Nat),
      (idsOf l).Nodup →
      (∀ x ∈ l, i = some x.id → x.atype = AttrType.style) →
      (∀ L, lastReopened AttrType.style last l = some L →
        (attr_list_filter_backspace last l b i).2.2 =
          if L.start_index < last then some L.id else none) ∧
      (lastReopened AttrType.style last l = none →
        ((∃ y ∈ l, y.atype = AttrType.style ∧ last ≤ y.start_index ∧
            i = some y.id) →
          (attr_list_filter_backspace last l b i).2.2 = none) ∧
        ((¬ ∃ y ∈ l, y.atype = AttrType.style ∧ last ≤ y.start_index ∧
            i = some y.id) →
          (attr_list_filter_backspace last l b i).2.2 = i)) := by
  intro l
  induction l with
  | nil =>
    intro b i hnd hit
    refine ⟨?_, ?_⟩
    · intro L hL
      exact Option.noConfusion hL
    · intro _
      refine ⟨?_, ?_⟩
      · rintro ⟨y, hy, _⟩
        exact absurd hy (List.not_mem_nil y)
      · intro _
        rfl
  | cons x t ih =>
    intro b i hnd hit
    rw [idsOf_cons] at hnd
    have hndt := (List.nodup_cons.mp hnd).2
    have hxnot := (List.nodup_cons.mp hnd).1
    have hit_t : ∀ y ∈ t, i = some y.id → y.atype = AttrType.style :=
      fun y hy => hit y (List.mem_cons_of_mem x hy)
    by_cases hmd : mdKind x
    · rcases id hmd with hs | hw
      · -- style head
        by_cases he : last ≤ x.end_index
        · -- the head re-establishes the italic pointer
          by_cases hr : last ≤ x.start_index
          · -- and is then removed, clearing it again
            obtain ⟨B2, hred⟩ : ∃ B2,
                (attr_list_filter_backspace last (x :: t) b i).2.2 =
                  (attr_list_filter_backspace last t B2 none).2.2 :=
              ⟨_, by rw [bsp_cons_style_removed last x t b i hs hr, if_pos he, if_pos rfl]⟩
            rw [hred]
            have hit_none : ∀ y ∈ t, (none : Option Nat) = some y.id →
                y.atype = AttrType.style := fun y hy h => Option.noConfusion h
            obtain ⟨ihA, ihB⟩ := ih B2 none hndt hit_none
            cases hT : lastReopened AttrType.style last t with
            | some L2 =>
              have hcons := lastReopened_cons_tail AttrType.style last x t L2 hT
              constructor
              · intro L hL
                rw [hcons] at hL
                injection hL with hLL
                subst hLL
                exact ihA L2 hT
              · intro hnone
                rw [hcons] at hnone
                exact Option.noConfusion hnone
            | none =>
              have hcons := lastReopened_cons_hit AttrType.style last x t ⟨hs, he⟩ hT
              constructor
              · intro L hL
                rw [hcons] at hL
                injection hL with hLL
                subst hLL
                rw [if_neg (by omega)]
                refine (ihB hT).2 ?_
                rintro ⟨y, _, _, _, hcon⟩
                exact Option.noConfusion hcon
              · intro hnone
                rw [hcons] at hnone
                exact Option.noConfusion hnone
          · -- and survives as the re-established pointer
            have hred : (attr_list_filter_backspace last (x :: t) b i).2.2 =
                (attr_list_filter_backspace last t b (some x.id)).2.2 := by
              rw [bsp_cons_style_kept last x t b i hs hr]
              simp only [he, if_true, ite_true]
            rw [hred]
            have hit_x : ∀ y ∈ t, some x.id = some y.id → y.atype = AttrType.style := by
              intro y hy hxy
              injection hxy with hh
              exact absurd (hh ▸ List.mem_map_of_mem (fun z => z.id) hy) hxnot
            obtain ⟨ihA, ihB⟩ := ih b (some x.id) hndt hit_x
            cases hT : lastReopened AttrType.style last t with
            | some L2 =>
              have hcons := lastReopened_cons_tail AttrType.style last x t L2 hT
              constructor
              · intro L hL
                rw [hcons] at hL
                injection hL with hLL
                subst hLL
                exact ihA L2 hT
              · intro hnone
                rw [hcons] at hnone
                exact Option.noConfusion hnone
            | none =>
              have hcons := lastReopened_cons_hit AttrType.style last x t ⟨hs, he⟩ hT
              constructor
              · intro L hL
                rw [hcons] at hL
                injection hL with hLL
                subst hLL
                rw [if_pos (by omega)]
                refine (ihB hT).2 ?_
                rintro ⟨y, hy, _, _, hxy⟩
                injection hxy with hh
                exact absurd (hh ▸ List.mem_map_of_mem (fun z => z.id) hy) hxnot
              · intro hnone
                rw [hcons] at hnone
                exact Option.noConfusion hnone
        · -- the head does not re-establish the pointer
          have hskip : lastReopened AttrType.style last (x :: t) =
              lastReopened AttrType.style last t :=
            lastReopened_cons_skip AttrType.style last x t (fun hcon => he hcon.2)
          by_cases hr : last ≤ x.start_index
          · -- head removed
            by_cases hix : i = some x.id
            · -- the incoming pointer aliased this attribute: cleared
              obtain ⟨B2, hred⟩ : ∃ B2,
                  (attr_list_filter_backspace last (x :: t) b i).2.2 =
                    (attr_list_filter_backspace last t B2 none).2.2 :=
                ⟨_, by rw [bsp_cons_style_removed last x t b i hs hr, if_neg he, if_pos hix]⟩
              rw [hred]
              have hit_none : ∀ y ∈ t, (none : Option Nat) = some y.id →
                  y.atype = AttrType.style := fun y hy h => Option.noConfusion h
              obtain ⟨ihA, ihB⟩ := ih B2 none hndt hit_none
              constructor
              · intro L hL
                rw [hskip] at hL
                exact ihA L hL
              · intro hnone
                rw [hskip] at hnone
                obtain ⟨ihB1, ihB2⟩ := ihB hnone
                constructor
                · intro _
                  refine ihB2 ?_
                  rintro ⟨y, _, _, _, hcon⟩
                  exact Option.noConfusion hcon
                · intro hnex
                  exact absurd ⟨x, List.mem_cons_self x t, hs, hr, hix⟩ hnex
            · -- the incoming pointer is not aliased: it passes through
              obtain ⟨B2, hred⟩ : ∃ B2,
                  (attr_list_filter_backspace last (x :: t) b i).2.2 =
                    (attr_list_filter_backspace last t B2 i).2.2 :=
                ⟨_, by rw [bsp_cons_style_removed last x t b i hs hr, if_neg he, if_neg hix]⟩
              rw [hred]
              obtain ⟨ihA, ihB⟩ := ih B2 i hndt hit_t
              constructor
              · intro L hL
                rw [hskip] at hL
                exact ihA L hL
              · intro hnone
                rw [hskip] at hnone
                obtain ⟨ihB1, ihB2⟩ := ihB hnone
                constructor
                · rintro ⟨y, hy, hys, hyst, hyi⟩
                  rcases List.mem_cons.mp hy with rfl | hyt
                  · exact absurd hyi hix
                  · exact ihB1 ⟨y, hyt, hys, hyst, hyi⟩
                · intro hnex
                  refine ihB2 ?_
                  intro hex
                  apply hnex
                  obtain ⟨y, hyt, hys, hyst, hyi⟩ := hex
                  exact ⟨y, List.mem_cons_of_mem x hyt, hys, hyst, hyi⟩
          · -- head kept and the pointer passes through
            have hred : (attr_list_filter_backspace last (x :: t) b i).2.2 =
                (attr_list_filter_backspace last t b i).2.2 := by
              rw [bsp_cons_style_kept last x t b i hs hr]
              simp only [he, if_false, ite_false]
            rw [hred]
            obtain ⟨ihA, ihB⟩ := ih b i hndt hit_t
            constructor
            · intro L hL
              rw [hskip] at hL
              exact ihA L hL
            · intro hnone
              rw [hskip] at hnone
              obtain ⟨ihB1, ihB2⟩ := ihB hnone
              constructor
              · rintro ⟨y, hy, hys, hyst, hyi⟩
                rcases List.mem_cons.mp hy with rfl | hyt
                · exact absurd hyst hr
                · exact ihB1 ⟨y, hyt, hys, hyst, hyi⟩
              · intro hnex
                refine ihB2 ?_
                intro hex
                apply hnex
                obtain ⟨y, hyt, hys, hyst, hyi⟩ := hex
                exact ⟨y, List.mem_cons_of_mem x hyt, hys, hyst, hyi⟩
      · -- weight head: the italic pointer passes through untouched
        have hix : ¬ i = some x.id := by
          intro hie
          have hsx := hit x (List.mem_cons_self x t) hie
          rw [hw] at hsx
          exact weight_ne_style hsx
        have hskip : lastReopened AttrType.style last (x :: t) =
            lastReopened AttrType.style last t := by
          apply lastReopened_cons_skip
          intro hcon
          have hx1 := hcon.1
          rw [hw] at hx1
          exact weight_ne_style hx1
        have hexiff : (∃ y ∈ x :: t, y.atype = AttrType.style ∧
            last ≤ y.start_index ∧ i = some y.id) ↔
            (∃ y ∈ t, y.atype = AttrType.style ∧
              last ≤ y.start_index ∧ i = some y.id) := by
          apply exists_cons_of_not_head
          intro hcon
          have hx1 := hcon.1
          rw [hw] at hx1
          exact weight_ne_style hx1
        obtain ⟨B2, hred⟩ : ∃ B2,
            (attr_list_filter_backspace last (x :: t) b i).2.2 =
              (attr_list_filter_backspace last t B2 i).2.2 := by
          by_cases hr : guintDec last ≤ x.start_index
          · exact ⟨_, by rw [bsp_cons_weight_removed last x t b i hw hr, if_neg hix]⟩
          · exact ⟨_, by rw [bsp_cons_weight_kept last x t b i hw hr]⟩
        rw [hred]
        obtain ⟨ihA, ihB⟩ := ih B2 i hndt hit_t
        constructor
        · intro L hL
          rw [hskip] at hL
          exact ihA L hL
        · intro hnone
          rw [hskip] at hnone
          obtain ⟨ihB1, ihB2⟩ := ihB hnone
          constructor
          · intro hex
            exact ihB1 (hexiff.mp hex)
          · intro hnex
            exact ihB2 (fun hex => hnex (hexiff.mpr hex))
    · -- overlay head: kept, pointers pass through
      have hskip : lastReopened AttrType.style last (x :: t) =
          lastReopened AttrType.style last t :=
        lastReopened_cons_skip AttrType.style last x t
          (fun hcon => hmd (Or.inl hcon.1))
      rw [bsp_cons_nonmd last x t b i hmd]
      obtain ⟨ihA, ihB⟩ := ih b i hndt hit_t
      constructor
      · intro L hL
        rw [hskip] at hL
        exact ihA L hL
      · intro hnone
        rw [hskip] at hnone
        obtain ⟨ihB1, ihB2⟩ := ihB hnone
        constructor
        · rintro ⟨y, hy, hys, hyst, hyi⟩
          rcases List.mem_cons.mp hy with rfl | hyt
          · exact absurd (Or.inl hys) hmd
          · exact ihB1 ⟨y, hyt, hys, hyst, hyi⟩
        · intro hnex
          refine ihB2 ?_
          intro hex
          apply hnex
          obtain ⟨y, hyt, hys, hyst, hyi⟩ := hex
          exact ⟨y, List.mem_cons_of_mem x hyt, hys, hyst, hyi⟩

/-- C2 amended: for every retract call with a previous codepoint (and the
engine's pointer invariants: distinct attribute ids, typed open pointers),
`markdown_attrs_backspace` succeeds and its filter pass satisfies the
claim's per-span description with the cutoff computed in 32-bit unsigned
arithmetic — `cutoff = new_offset` for Italic spans and `new_offset - 1`
computed by a wrapping `guint` decrement for Bold spans (so `new_offset =
0` wraps to `2^32 - 1` instead of `-1`): spans with `end ≥ cutoff` are
converted to unbounded and the last of them is re-established as the open
pointer (cleared again if that span was itself removed), spans with
`start ≥ cutoff` are removed (clearing the open pointer if it aliased
them), every other markdown span and both reserved overlay spans pass
through untouched, and nothing new appears. -/
theorem c2_backspace_filter_amended :
    ∀ (st : MarkdownState) (s : List Nat),
      1 ≤ st.pos → st.pos ≤ cpLen s →
      (idsOf st.attr_list).Nodup →
      (∀ x ∈ st.attr_list, st.bold = some x.id → x.atype = AttrType.weight) →
      (∀ x ∈ st.attr_list, st.italic = some x.id → x.atype = AttrType.style) →
      ∃ st' s', markdown_attrs_backspace st s = some (st', s') ∧
        backspaceSpecAt st st' (guint (byteOff s (st.pos - 1))) := by
  intro st s hpos hle hnd hbt hit
  have hnlt : ¬ (cpLen s + 1 < st.pos) := by omega
  have hne0 : ¬ (st.pos = 0) := by omega
  refine ⟨{ st with
      pos := st.pos - 1,
      attr_list := (attr_list_filter_backspace (guint (byteOff s (st.pos - 1)))
        st.attr_list st.bold st.italic).1,
      bold := (attr_list_filter_backspace (guint (byteOff s (st.pos - 1)))
        st.attr_list st.bold st.italic).2.1,
      italic := (attr_list_filter_backspace (guint (byteOff s (st.pos - 1)))
        st.attr_list st.bold st.italic).2.2 },
    truncateToBytes s (byteOff s (st.pos - 1)), ?_, ?_⟩
  · unfold markdown_attrs_backspace
    rw [if_neg hnlt, if_neg hne0]
  · obtain ⟨l1, l2, l3, l4, l5⟩ := bsp_list_spec (guint (byteOff s (st.pos - 1)))
      st.attr_list st.bold st.italic
    obtain ⟨bA, bB⟩ := bsp_bold_ref (guint (byteOff s (st.pos - 1)))
      st.attr_list st.bold st.italic hnd hbt
    obtain ⟨iA, iB⟩ := bsp_italic_ref (guint (byteOff s (st.pos - 1)))
      st.attr_list st.bold st.italic hnd hit
    exact ⟨l1, l2, l3, l4 hnd, l5, bA, bB, iA, iB⟩

/-- Witness for `c2_backspace_filter_amended`: retracting the single
underscore of the buffer `_` from a state with distinct ids and clear
pointers. -/
theorem c2_backspace_filter_amended_witness :
    (idsOf (mkState 1 markdown_state_new.attr_list none none 2).attr_list).Nodup ∧
    ∃ st' s',
      markdown_attrs_backspace
        (mkState 1 markdown_state_new.attr_list none none 2) [95] = some (st', s') ∧
      backspaceSpecAt (mkState 1 markdown_state_new.attr_list none none 2) st'
        (guint (byteOff [95] 0)) :=
  ⟨by decide,
    c2_backspace_filter_amended (mkState 1 markdown_state_new.attr_list none none 2) [95]
      (by decide) (by decide) (by decide)
      (fun x hx h => Option.noConfusion h) (fun x hx h => Option.noConfusion h)⟩
